import Mathlib

/-!
A verification development for the CAT LLVM function pass (`src/src/CatPass.cpp`).

The pass performs an intraprocedural reaching-definitions dataflow analysis over
the instructions of a function (skipping blocks absent from the dominator tree,
i.e. unreachable blocks), followed by constant propagation of `CAT_get` calls
and constant folding of `CAT_add`/`CAT_sub` calls into `CAT_set` calls.

Shallow embedding conventions:
* an LLVM `Value*` is embedded as `Val`: a reference to an instruction by its
  (unique) numeric identity — pointer identity becomes `Nat` identity —, a
  `ConstantInt` (LLVM uniques constant objects, so integer value equality is
  exactly pointer equality), or some other non-instruction value (an argument);
* an instruction is embedded as `Instr`, keeping exactly the shapes the pass
  inspects: direct calls (with callee name and argument operands), phi nodes
  (incoming block, incoming value), stores, loads, branches (successor block
  indices) and an opaque `other` for everything else (e.g. `ret`);
* a function is a list of basic blocks in layout order, block 0 the entry;
* LLVM `BitVector` sets become `Finset Nat` over catalog indices (resize-on-
  demand plus bit test is exactly set membership);
* `definesAsConstant` recurses unboundedly in the C++ (and can in fact fail to
  terminate, see the development for claim C8), so its embedding takes an
  explicit fuel argument; `none` marks fuel exhaustion, i.e. a run of the C++
  that is still recursing after that depth.
-/

namespace CatPass

/-- An LLVM `Value*` as far as the pass can distinguish them. -/
inductive Val where
  | inst : Nat → Val
  | const : Int → Val
  | arg : Nat → Val
deriving DecidableEq, Repr

/-- The instruction shapes the pass dispatches on (`CallInst`, `PHINode`,
`StoreInst`, `LoadInst`, terminators, anything else). `store v p` stores value
`v` to pointer `p`; `br ts` lists successor block indices. -/
inductive Instr where
  | call : String → List Val → Instr
  | phi : List (Nat × Val) → Instr
  | store : Val → Val → Instr
  | load : Val → Instr
  | br : List Nat → Instr
  | other : Instr
deriving DecidableEq, Repr

/-- A basic block: instructions paired with their value identity. -/
structure Block where
  insts : List (Nat × Instr)
deriving DecidableEq, Repr

/-- A function: basic blocks in layout order, block 0 the entry block. -/
structure Func where
  blocks : List Block
deriving DecidableEq, Repr

/-- All instructions of the function, reachable or not, in layout order. -/
def allInsts (F : Func) : List (Nat × Instr) :=
  (F.blocks.map Block.insts).flatten

/-- Resolve an instruction identity to its instruction, as `dyn_cast` does on a
`Value*` that happens to be an instruction of the function. -/
def Func.findInst (F : Func) (id : Nat) : Option Instr :=
  (allInsts F).lookup id

/-- `CAT_API::API`, the list of tracked CAT function names. -/
def API : List String := ["CAT_add", "CAT_sub", "CAT_new", "CAT_get", "CAT_set"]

/-- `CAT::isKilledBy(L, R)` (CatPass.cpp lines 173-200): `R` kills `L` iff `R`
is a `CAT_add`/`CAT_sub`/`CAT_set` call whose first operand is `L` itself, or
both are such calls (or `CAT_new` is excluded for `L` too) redefining the same
first operand, which must itself be a call instruction. `L` is passed together
with its identity (the C++ compares instruction pointers). -/
def isKilledBy (F : Func) (L : Nat × Instr) (R : Instr) : Bool :=
  match R with
  | .call rname rargs =>
    if rname = "CAT_add" ∨ rname = "CAT_sub" ∨ rname = "CAT_set" then
      match rargs.head? with
      | some rop =>
        if Val.inst L.1 = rop then true
        else
          match L.2 with
          | .call lname largs =>
            if lname = "CAT_add" ∨ lname = "CAT_sub" ∨ lname = "CAT_set" then
              match largs.head? with
              | some (Val.inst lid) =>
                match F.findInst lid with
                | some (.call _ _) => decide (rop = Val.inst lid)
                | _ => false
              | _ => false
            else false
          | _ => false
      | none => false
    else false
  | _ => false

/-- Argument operand `k` of a call when it is a `ConstantInt`
(`isa<ConstantInt>` + `cast<ConstantInt>` + `getSExtValue`). -/
def constArg (args : List Val) (k : Nat) : Option Int :=
  match args.get? k with
  | some (.const c) => some c
  | _ => none

/-- The call-instruction half of `CAT::definesAsConstant` (lines 211-230):
a `CAT_new` defines itself as its constant first argument; a `CAT_set` defines
its first operand as its constant second argument. -/
def dACcall (lid : Nat) (fname : String) (args : List Val) (R : Val) : Option Int :=
  if fname = "CAT_new" ∧ Val.inst lid = R ∧ (constArg args 0).isSome then
    constArg args 0
  else if fname = "CAT_set" ∧ args.get? 0 = some R ∧ (constArg args 1).isSome then
    constArg args 1
  else
    none

/-- The phi loop of `CAT::definesAsConstant` (lines 231-268), parameterised by
the recursive call `rec`. Carries `all_consts` (`allC`) and the candidate
constant (`val`, `none` meaning `val_set == false`). A mismatching or
non-constant incoming instruction is `goto DEF_CONST` with `all_consts`
false, i.e. an immediate `nullptr` (`some none`); a non-instruction incoming
value clears `all_consts` but keeps iterating. A `none` from `rec` is fuel
exhaustion and is propagated (the C++ would still be recursing). -/
def dACphiAux (F : Func)
    (rec : Nat → Instr → Val → Option Nat → Option (Option Int))
    : List (Nat × Val) → Bool → Option Int → Option (Option Int)
  | [], allC, val => some (if allC then val else none)
  | (_, v) :: rest, allC, val =>
    match v with
    | Val.inst vid =>
      match F.findInst vid with
      | some inst =>
        match rec vid inst (Val.inst vid) none with
        | none => none
        | some (some c) =>
          match val with
          | none => dACphiAux F rec rest allC (some c)
          | some v0 =>
            if v0 ≠ c then some none
            else dACphiAux F rec rest allC val
        | some none => some none
      | none => dACphiAux F rec rest false val
    | _ => dACphiAux F rec rest false val

/-- `CAT::definesAsConstant(L, R, originalPhi)` (lines 209-270) with explicit
fuel. `lid` is `L`'s identity; result `none` is fuel exhaustion (the C++ is
still recursing at that depth), `some none` is `nullptr`, `some (some c)` is
the constant. The phi case breaks out only when `L` *is* `originalPhi`; the
recursive calls pass `originalPhi` (or `L` itself when it was null), and pass
each incoming instruction as both the definition and the value tested. -/
def dAC (F : Func) : Nat → Nat → Instr → Val → Option Nat → Option (Option Int)
  | 0, _, _, _, _ => none
  | fuel + 1, lid, l, r, orig =>
    match l with
    | .call fname args => some (dACcall lid fname args r)
    | .phi inc =>
      if orig = some lid then some none
      else
        dACphiAux F (fun vid inst v _ => dAC F fuel vid inst v (some (orig.getD lid)))
          inc true none
    | _ => some none

/-- `CAT::defines(L, R)` (lines 276-308): `CAT_new` defines itself, `CAT_set`/
`CAT_add`/`CAT_sub` define their first operand, `CAT_get` defines nothing, any
other call may define any of its arguments, and a phi defines itself. -/
def defines (L : Instr) (lid : Nat) (R : Val) : Bool :=
  match L with
  | .call fname args =>
    if fname = "CAT_new" then decide (Val.inst lid = R)
    else if fname = "CAT_set" ∨ fname = "CAT_add" ∨ fname = "CAT_sub" then
      decide (args.get? 0 = some R)
    else if fname = "CAT_get" then false
    else args.contains R
  | .phi _ => decide (Val.inst lid = R)
  | _ => false

/-! ### Reachability and the definition catalog

The C++ skips a block `B` whenever `DT.getNode(&B) == NULL`; the dominator tree
has a node exactly for the blocks reachable from the entry block, so the
embedding computes reachability from block 0 directly: one `reachStep` adds all
successors of already-reached blocks, and iterating it `|blocks|` times reaches
the closure (each iteration before closure adds at least one of the at most
`|blocks|` blocks). -/

/-- Instructions of block `b` (empty if `b` is out of range). -/
def blkInsts (F : Func) (b : Nat) : List (Nat × Instr) :=
  match F.blocks.get? b with
  | some bl => bl.insts
  | none => []

/-- CFG successors of block `b`: the targets of its terminator (its last
instruction) when that is a branch. -/
def succsOf (F : Func) (b : Nat) : List Nat :=
  match (blkInsts F b).getLast? with
  | some (_, .br ts) => ts
  | _ => []

/-- CFG predecessors of block `b` (`predecessors(&B)`). -/
def predBlocks (F : Func) (b : Nat) : List Nat :=
  (List.range F.blocks.length).filter (fun i => decide (b ∈ succsOf F i))

/-- Simple iteration helper. -/
def iterN (f : α → α) : Nat → α → α
  | 0, a => a
  | n + 1, a => iterN f n (f a)

/-- One step of the reachability closure. -/
def reachStep (F : Func) (s : Finset Nat) : Finset Nat :=
  s ∪ (Finset.range F.blocks.length).filter (fun j => ∃ i ∈ s, j ∈ succsOf F i)

/-- The blocks reachable from entry; the embedding of "`DT.getNode(&B)` is not
null". -/
def reachableBlocks (F : Func) : Finset Nat :=
  iterN (reachStep F) F.blocks.length (if 0 < F.blocks.length then {0} else ∅)

/-- The reachable blocks in layout order — the blocks every pass iterates. -/
def reachList (F : Func) : List Nat :=
  (List.range F.blocks.length).filter (fun b => decide (b ∈ reachableBlocks F))

/-- The definition catalog: the instructions of the reachable blocks in program
order; index `k` of this list is the dense index the pass assigns. -/
def catInsts (F : Func) : List (Nat × Instr) :=
  ((reachList F).map (blkInsts F)).flatten

/-- Number of catalogued (reachable) instructions. -/
def numCat (F : Func) : Nat := (catInsts F).length

/-! ### Pass 1: GEN and KILL (lines 332-417) -/

/-- The per-instruction record built in pass 1: identity, instruction, the
alias recorded for stores (`DFA_SET::addAlias`), and the GEN and KILL sets. -/
structure Entry where
  id : Nat
  instr : Instr
  aliasVal : Option Val
  gen : Finset Nat
  kill : Finset Nat
deriving DecidableEq

/-- Add `idx` to the KILL set of every entry whose position is in `targets`. -/
def addKill (st : List Entry) (targets : Finset Nat) (idx : Nat) : List Entry :=
  st.mapIdx (fun i e => if i ∈ targets then { e with kill := insert idx e.kill } else e)

/-- Test entry at position `i` (false when out of range). -/
def entTest (st : List Entry) (p : Entry → Bool) (i : Nat) : Bool :=
  match st.get? i with
  | some e => p e
  | none => false

/-- Positions of the already-built entries satisfying `p`. -/
def entSel (st : List Entry) (p : Entry → Bool) : Finset Nat :=
  (Finset.range st.length).filter (fun i => entTest st p i = true)

/-- Is this entry a `CAT_new` call? -/
def isNewCall (e : Entry) : Bool :=
  match e.instr with
  | .call n _ => n = "CAT_new"
  | _ => false

/-- Does this entry hold a store whose pointer operand appears among `args`? -/
def storeArgTest (args : List Val) (e : Entry) : Bool :=
  match e.instr with
  | .store _ p => args.contains p
  | _ => false

/-- The first position `k < i` whose instruction is the value `av` — the inner
`for (k…) … break` search of lines 366-374. -/
def aliasFind (st : List Entry) (i : Nat) (av : Val) : Option Nat :=
  (List.range i).find? (fun k => entTest st (fun ek => decide (Val.inst ek.id = av)) k)

/-- For every earlier store whose pointer is an argument of the opaque call,
the store's position paired with the position found for its alias. -/
def aliasPairs (st : List Entry) (args : List Val) : List (Nat × Nat) :=
  (List.range st.length).filterMap (fun i =>
    match st.get? i with
    | some e =>
      if storeArgTest args e then
        match e.aliasVal with
        | some av => (aliasFind st i av).map (fun k => (i, k))
        | none => none
      else none
    | none => none)

/-- All positions occurring in a list of pairs. -/
def pairsSet (l : List (Nat × Nat)) : Finset Nat :=
  l.foldr (fun pr a => insert pr.1 (insert pr.2 a)) ∅

/-- The earlier positions an opaque (non-API) call kills: every earlier
`CAT_new` among its arguments, plus, for each earlier store to one of its
arguments, the store itself and the instruction its alias resolves to
(lines 356-387). -/
def opaqueKills (st : List Entry) (args : List Val) : Finset Nat :=
  entSel st (fun e => isNewCall e && args.contains (Val.inst e.id)) ∪
    pairsSet (aliasPairs st args)

/-- Processing one instruction in pass 1. GEN is set to the instruction's own
index unconditionally (line 341). Then:
* a CAT API call other than `CAT_get` records, for every earlier entry it
  kills per `isKilledBy`, the kill in both directions (lines 345-354);
* a non-API call records `opaqueKills` in both directions (lines 356-387;
  the `do … while (!aliases.size() == 0)` loop body runs exactly once since
  `(!0) == 0` is false);
* a phi is killed by (and kills) every earlier entry that `defines` it
  (lines 389-396);
* a store records its stored value as alias (lines 397-402);
* a load kills (and is killed by) every earlier store to the same pointer
  (lines 403-413). -/
def pass1Step (F : Func) (st : List Entry) (q : Nat × Instr) : List Entry :=
  let index := st.length
  let base : Entry := ⟨q.1, q.2, none, {index}, ∅⟩
  match q.2 with
  | .call fname args =>
    if fname ∈ API ∧ fname ≠ "CAT_get" then
      let ks := entSel st (fun e => isKilledBy F (e.id, e.instr) q.2)
      addKill st ks index ++ [{ base with kill := ks }]
    else if fname ∉ API then
      let ks := opaqueKills st args
      addKill st ks index ++ [{ base with kill := ks }]
    else
      st ++ [base]
  | .phi _ =>
    let ks := entSel st (fun e => defines e.instr e.id (Val.inst q.1))
    addKill st ks index ++ [{ base with kill := ks }]
  | .store v _ =>
    st ++ [{ base with aliasVal := some v }]
  | .load p =>
    let ks := entSel st (fun e =>
      match e.instr with
      | .store _ sp => decide (sp = p)
      | _ => false)
    addKill st ks index ++ [{ base with kill := ks }]
  | _ =>
    st ++ [base]

/-- Pass 1 over the whole catalog. -/
def pass1 (F : Func) : List Entry :=
  (catInsts F).foldl (pass1Step F) []

/-- The GEN set of catalog index `k`. -/
def genAt (F : Func) (k : Nat) : Finset Nat :=
  match (pass1 F).get? k with
  | some e => e.gen
  | none => ∅

/-- The KILL set of catalog index `k`. -/
def killAt (F : Func) (k : Nat) : Finset Nat :=
  match (pass1 F).get? k with
  | some e => e.kill
  | none => ∅

/-! ### Pass 2: IN and OUT (lines 419-468)

The loop walks the reachable blocks in layout order keeping a running `index`
(so positions agree with the catalog) and a per-block `first` flag. A
block-initial instruction unions into its IN set the OUT set of the DFA entry
found (by instruction identity) for the terminator of each CFG predecessor
block — an unreachable predecessor has no entry and contributes nothing — and
any other instruction unions in the OUT set of entry `index - 1`. Then OUT
gains GEN and `IN \ KILL` (`set_diff = (IN xor KILL) and IN`). Nothing is ever
cleared (the `clear()` calls are commented out), so IN and OUT only grow. The
loop repeats while some OUT set changed during a full pass. -/

/-- The identity of block `b`'s terminator (its last instruction). -/
def termId (F : Func) (b : Nat) : Option Nat :=
  ((blkInsts F b).getLast?).map Prod.fst

/-- The catalog index holding block `b`'s terminator, if any — the index the
inner search of lines 440-445 finds. An unreachable block's terminator is not
in the catalog, so the search comes up empty for it. -/
def termIdx (F : Func) (b : Nat) : Option Nat :=
  match termId F b with
  | some tid => (catInsts F).findIdx? (fun pr => pr.1 = tid)
  | none => none

/-- `(start position, block index)` for each reachable block, in layout order. -/
def startsGo (F : Func) : List Nat → Nat → List (Nat × Nat)
  | [], _ => []
  | b :: rest, pos => (pos, b) :: startsGo F rest (pos + (blkInsts F b).length)

/-- Association from catalog position of a block's first instruction to the
block's index. -/
def startsAssoc (F : Func) : List (Nat × Nat) :=
  startsGo F (reachList F) 0

/-- The catalog positions whose OUT sets feed position `k`'s IN set: for a
block-initial position, the terminator positions of the block's CFG
predecessors (skipping those without a catalog entry); otherwise `k - 1`. -/
def predIdxs (F : Func) (k : Nat) : List Nat :=
  match (startsAssoc F).lookup k with
  | some b => (predBlocks F b).filterMap (termIdx F)
  | none => if k = 0 then [] else [k - 1]

/-- A dataflow state: catalog position to (IN, OUT). -/
def DfState : Type := Nat → Finset Nat × Finset Nat

/-- Union of the OUT sets of the positions in `l`. -/
def outUnion (st : DfState) (l : List Nat) : Finset Nat :=
  l.foldr (fun p a => (st p).2 ∪ a) ∅

/-- The pass-2 update of a single position `k` (lines 437-458): IN gains the
predecessors' current OUT sets, OUT gains GEN and the new `IN \ KILL`. -/
def upd (g kl : Nat → Finset Nat) (pr : Nat → List Nat) (k : Nat) (st : DfState) :
    DfState :=
  fun j =>
    if j = k then
      let newIn := (st k).1 ∪ outUnion st (pr k)
      (newIn, (st k).2 ∪ (g k ∪ (newIn \ kl k)))
    else st j

/-- Apply the update at each position of `l` in order, each update seeing the
effect of the previous ones — exactly the single in-order sweep of the C++. -/
def passL (g kl : Nat → Finset Nat) (pr : Nat → List Nat) (l : List Nat)
    (st : DfState) : DfState :=
  l.foldl (fun s k => upd g kl pr k s) st

/-- One full pass over all `n` positions in program order. -/
def onePass (g kl : Nat → Finset Nat) (pr : Nat → List Nat) (n : Nat)
    (st : DfState) : DfState :=
  passL g kl pr (List.range n) st

/-- `m` full passes from a state. -/
def dfIter (g kl : Nat → Finset Nat) (pr : Nat → List Nat) (n : Nat) :
    Nat → DfState
  | 0 => fun _ => (∅, ∅)
  | m + 1 => onePass g kl pr n (dfIter g kl pr n m)

/-- "No OUT set changed during the pass from `st` to `st'`" — the loop's exit
condition (`out_has_changed == false`). -/
def outsEq (n : Nat) (st st' : DfState) : Prop :=
  ∀ k < n, (st k).2 = (st' k).2

instance (n : Nat) (st st' : DfState) : Decidable (outsEq n st st') := by
  unfold outsEq; infer_instance

/-- The `do … while (out_has_changed)` loop: run a pass; stop when no OUT
changed, returning the state *after* that final pass (the C++ has already
applied it), else continue. The fuel only bounds the recursion; the lemmas
`dfLoop_exit` and `dfFixF_reached` below show that the fuel chosen in
`dfFixF` always suffices, so this is the very state in which the C++ loop
terminates. -/
def dfLoop (g kl : Nat → Finset Nat) (pr : Nat → List Nat) (n : Nat) :
    Nat → DfState → DfState
  | 0, st => st
  | fuel + 1, st =>
    let st' := onePass g kl pr n st
    if outsEq n st st' then st' else dfLoop g kl pr n fuel st'

/-- Pass 2 instantiated for a function. -/
def onePassF (F : Func) (st : DfState) : DfState :=
  onePass (genAt F) (killAt F) (predIdxs F) (numCat F) st

/-- `m` passes for a function, from the all-empty initial state. -/
def dfIterF (F : Func) (m : Nat) : DfState :=
  dfIter (genAt F) (killAt F) (predIdxs F) (numCat F) m

/-- The state in which pass 2 terminates for a function. `numCat F ^ 2 + 1`
passes always suffice (each pass before the last strictly grows the total OUT
cardinality, which is bounded by `numCat F ^ 2`). -/
def dfFixF (F : Func) : DfState :=
  dfLoop (genAt F) (killAt F) (predIdxs F) (numCat F) (numCat F ^ 2 + 1)
    (fun _ => (∅, ∅))

/-- The IN set the planner reads for catalog position `k`. -/
def inAt (F : Func) (k : Nat) : Finset Nat := (dfFixF F k).1

/-- The OUT set at the fixed point. -/
def outAt (F : Func) (k : Nat) : Finset Nat := (dfFixF F k).2

/-! ### Pass 3: planning constant propagation and constant folding
(lines 472-591)

Both scans iterate over the bit positions of the instruction's IN set in
increasing order. The propagation scan keeps the candidate `ConstantInt` and
compares full 64-bit `getSExtValue`s. The folding scan stores
`c_val->getSExtValue()` into a C `int` — `val1`/`val2` are 32-bit — so the
stored candidate is the value wrapped to 32 bits (`toInt32`), and the
consistency test compares that wrapped `int` (promoted back to 64 bits)
against the full `getSExtValue` of the next candidate. The planned folded
value is the 32-bit sum or difference, later sign-extended by
`APInt(64, fold_iter->second, true)`.

A scan result of `none` models a run on which `definesAsConstant` never
returns (fuel exhausted at every depth); no plan is recorded in that case,
matching the fact that a diverging C++ run records nothing. -/

/-- Wrap an integer to signed 32-bit two's complement — the effect of storing
an `int64_t` into a C `int` on the targets LLVM supports. -/
def toInt32 (x : Int) : Int :=
  (x + 2 ^ 31) % 2 ^ 32 - 2 ^ 31

/-- The planner scan over the listed IN positions, common to propagation
(lines 495-520) and folding (lines 539-579); the two differ only in how a
candidate constant is stored (`sto`): propagation keeps the full 64-bit
`getSExtValue`, folding stores it into a C `int`, wrapping to 32 bits.
`val = none` is `val_set == false`. Returns `some (can_prop, val)`, or `none`
when `definesAsConstant` diverges. A constant definition is compared (via the
64-bit values, the stored candidate promoted back) against the candidate and
any mismatch aborts (`goto` with the flag cleared); a non-constant definition
of the argument aborts the same way; anything else is ignored. -/
def scanGo (F : Func) (ents : List Entry) (fuel : Nat) (sto : Int → Int) (a : Val) :
    List Nat → Option Int → Option (Bool × Option Int)
  | [], val => some (true, val)
  | i :: rest, val =>
    match ents.get? i with
    | none => scanGo F ents fuel sto a rest val
    | some e =>
      match dAC F fuel e.id e.instr a none with
      | none => none
      | some (some c) =>
        match val with
        | none => scanGo F ents fuel sto a rest (some (sto c))
        | some v0 =>
          if v0 ≠ c then some (false, some v0)
          else scanGo F ents fuel sto a rest (some v0)
      | some none =>
        if defines e.instr e.id a then some (false, val)
        else scanGo F ents fuel sto a rest val

/-- The propagation scan: candidates are the full 64-bit constant. -/
def scanPropGo (F : Func) (ents : List Entry) (fuel : Nat) (a : Val)
    (l : List Nat) (val : Option Int) : Option (Bool × Option Int) :=
  scanGo F ents fuel (fun c => c) a l val

/-- The folding scan: candidates pass through the 32-bit `int` `val1`/`val2`. -/
def scanFoldGo (F : Func) (ents : List Entry) (fuel : Nat) (a : Val)
    (l : List Nat) (val : Option Int) : Option (Bool × Option Int) :=
  scanGo F ents fuel toInt32 a l val

/-- The IN positions of catalog index `k`, in increasing order — the order the
C++ walks the bit-vector. -/
def inList (F : Func) (k : Nat) : List Nat :=
  (List.range (numCat F)).filter (fun i => decide (i ∈ inAt F k))

/-- The propagation planned for catalog position `k`, if any: `k` must hold a
`CAT_get` call, and the scan of its IN set must finish with `can_prop` and
`val_set` both set (line 522). The plan is keyed by the instruction's identity
(the C++ keys its `std::map` by the instruction pointer) and carries the
propagated constant. -/
def propPlanAt (F : Func) (ents : List Entry) (fuel k : Nat) : Option (Nat × Int) :=
  match ents.get? k with
  | some e =>
    match e.instr with
    | .call fname args =>
      if fname = "CAT_get" then
        match args.get? 0 with
        | some a =>
          match scanPropGo F ents fuel a (inList F k) none with
          | some (true, some v) => some (e.id, v)
          | _ => none
        | none => none
      else none
    | _ => none
  | none => none

/-- The folding planned for catalog position `k`, if any: `k` must hold a
`CAT_add`/`CAT_sub` call and both value operands must scan to consistent
constants (line 583); the planned value is the 32-bit `int` sum or difference
(line 586). An abort (`goto CONST_FOLD`) in the first operand's scan skips the
second scan entirely. -/
def foldPlanAt (F : Func) (ents : List Entry) (fuel k : Nat) : Option (Nat × Int) :=
  match ents.get? k with
  | some e =>
    match e.instr with
    | .call fname args =>
      if fname = "CAT_add" ∨ fname = "CAT_sub" then
        match args.get? 1, args.get? 2 with
        | some a1, some a2 =>
          match scanFoldGo F ents fuel a1 (inList F k) none with
          | some (true, r1) =>
            match scanFoldGo F ents fuel a2 (inList F k) none with
            | some (true, r2) =>
              match r1, r2 with
              | some v1, some v2 =>
                some (e.id, if fname = "CAT_add" then toInt32 (v1 + v2)
                            else toInt32 (v1 - v2))
              | _, _ => none
            | _ => none
          | _ => none
        | _, _ => none
      else none
    | _ => none
  | none => none

/-- The two rewrite plans for a function: the propagation map and the folding
map, both in catalog order, keyed by instruction identity. -/
def plans (fuel : Nat) (F : Func) : List (Nat × Int) × List (Nat × Int) :=
  let ents := pass1 F
  ((List.range (numCat F)).filterMap (propPlanAt F ents fuel),
   (List.range (numCat F)).filterMap (foldPlanAt F ents fuel))

/-! ### Applying the plans (lines 593-625) -/

/-- Substitute value `o` by value `n` in a single operand. -/
def substVal (o n v : Val) : Val :=
  if v = o then n else v

/-- Substitute value `o` by value `n` in all operands of an instruction — the
use-rewriting effect of `ReplaceInstWithValue`. -/
def Instr.subst (o n : Val) : Instr → Instr
  | .call f args => .call f (args.map (substVal o n))
  | .phi inc => .phi (inc.map (fun pr => (pr.1, substVal o n pr.2)))
  | .store v p => .store (substVal o n v) (substVal o n p)
  | .load p => .load (substVal o n p)
  | .br ts => .br ts
  | .other => .other

/-- The use-rewrite one planned propagation `(id, c)` performs on a single
instruction: replace every operand use of instruction `id` by the constant. -/
def propOne (p : Nat × Int) (r : Nat × Instr) : Nat × Instr :=
  (r.1, r.2.subst (Val.inst p.1) (Val.const p.2))

/-- Apply one planned propagation `(id, c)`: erase the `CAT_get` instruction
`id` and replace every use of it by the constant `c`
(`ReplaceInstWithValue`, lines 594-599). -/
def applyProp (F : Func) (p : Nat × Int) : Func :=
  ⟨F.blocks.map (fun b => ⟨(b.insts.filter (fun q => q.1 ≠ p.1)).map (propOne p)⟩)⟩

/-- The `CAT_set` call synthesised for a folding: same first operand, constant
second operand (lines 604-621). -/
def mkSetCall (old : Instr) (v : Int) : Instr :=
  match old with
  | .call _ args => .call "CAT_set" [(args.get? 0).getD (Val.const 0), .const v]
  | _ => old

/-- The rewrite one planned folding `(id, v)` performs on a single
instruction: replace instruction `id` in place by `CAT_set(arg0, v)`. -/
def foldOne (p : Nat × Int) (r : Nat × Instr) : Nat × Instr :=
  if r.1 = p.1 then (r.1, mkSetCall r.2 p.2) else r

/-- Apply one planned folding `(id, v)` (`ReplaceInstWithInst`,
lines 603-625; the new call takes over the old instruction's uses, hence its
identity). -/
def applyFold (F : Func) (p : Nat × Int) : Func :=
  ⟨F.blocks.map (fun b => ⟨b.insts.map (foldOne p)⟩)⟩

/-- `CAT::runOnFunction`'s rewriting: compute both plans over the unmodified
function, then apply every propagation, then every folding. -/
def runOnFunction (fuel : Nat) (F : Func) : Func :=
  let pls := plans fuel F
  pls.2.foldl applyFold (pls.1.foldl applyProp F)

/-! ### Lemmas about the pass-2 sweep

`st ⊑ st'` pointwise set inclusion of both components; the sweep only ever
unions, so states grow along a pass, and the invariant
"IN below the predecessor OUTs, OUT below `GEN ∪ (IN \ KILL)`" is preserved.
Combined with the description of what one sweep does at a single position,
this settles the fixed-point equations of claim C4. -/

section Dataflow

variable (g kl : Nat → Finset Nat) (pr : Nat → List Nat)

/-- Pointwise growth order on dataflow states. -/
def DfLe (st st' : DfState) : Prop :=
  ∀ k, (st k).1 ⊆ (st' k).1 ∧ (st k).2 ⊆ (st' k).2

theorem DfLe.refl (st : DfState) : DfLe st st :=
  fun _ => ⟨subset_rfl, subset_rfl⟩

theorem DfLe.trans {a b c : DfState} (h1 : DfLe a b) (h2 : DfLe b c) : DfLe a c :=
  fun k => ⟨(h1 k).1.trans (h2 k).1, (h1 k).2.trans (h2 k).2⟩

theorem upd_apply_ne (k : Nat) (st : DfState) {j : Nat} (h : j ≠ k) :
    upd g kl pr k st j = st j := by
  simp [upd, h]

theorem upd_fst (k : Nat) (st : DfState) :
    (upd g kl pr k st k).1 = (st k).1 ∪ outUnion st (pr k) := by
  simp [upd]

theorem upd_snd (k : Nat) (st : DfState) :
    (upd g kl pr k st k).2 =
      (st k).2 ∪ (g k ∪ (((st k).1 ∪ outUnion st (pr k)) \ kl k)) := by
  simp [upd]

theorem upd_le (k : Nat) (st : DfState) : DfLe st (upd g kl pr k st) := by
  intro j
  by_cases h : j = k
  · subst h
    constructor
    · rw [upd_fst]
      exact Finset.subset_union_left
    · rw [upd_snd]
      exact Finset.subset_union_left
  · rw [upd_apply_ne g kl pr k st h]
    exact ⟨subset_rfl, subset_rfl⟩

theorem passL_le (l : List Nat) (st : DfState) : DfLe st (passL g kl pr l st) := by
  induction l generalizing st with
  | nil => exact DfLe.refl st
  | cons k l ih =>
    exact (upd_le g kl pr k st).trans (ih (upd g kl pr k st))

theorem passL_not_mem (l : List Nat) (st : DfState) {k : Nat} (h : k ∉ l) :
    passL g kl pr l st k = st k := by
  induction l generalizing st with
  | nil => rfl
  | cons j l ih =>
    have hjk : k ≠ j := fun hkj => h (hkj ▸ List.mem_cons_self j l)
    have hk : k ∉ l := fun hk => h (List.mem_cons_of_mem j hk)
    show passL g kl pr l (upd g kl pr j st) k = st k
    rw [ih (upd g kl pr j st) hk, upd_apply_ne g kl pr j st hjk]

theorem passL_append (l₁ l₂ : List Nat) (st : DfState) :
    passL g kl pr (l₁ ++ l₂) st = passL g kl pr l₂ (passL g kl pr l₁ st) :=
  List.foldl_append _ _ l₁ l₂

theorem outUnion_mono {st st' : DfState} (h : DfLe st st') (l : List Nat) :
    outUnion st l ⊆ outUnion st' l := by
  induction l with
  | nil => exact subset_rfl
  | cons p l ih =>
    exact Finset.union_subset_union (h p).2 ih

theorem outUnion_congr {st st' : DfState} (l : List Nat)
    (h : ∀ p ∈ l, (st p).2 = (st' p).2) : outUnion st l = outUnion st' l := by
  induction l with
  | nil => rfl
  | cons p l ih =>
    show (st p).2 ∪ outUnion st l = (st' p).2 ∪ outUnion st' l
    rw [h p (List.mem_cons_self p l), ih (fun q hq => h q (List.mem_cons_of_mem p hq))]

/-- Splitting `range n` around a member `k`: a prefix of positions below `k`,
then `k`, then positions above `k`. -/
theorem range_split {n k : Nat} (h : k < n) :
    ∃ M : List Nat, List.range n = List.range k ++ k :: M ∧ ∀ j ∈ M, k < j := by
  have hn : n = (k + 1) + (n - (k + 1)) := by omega
  refine ⟨(List.range (n - (k + 1))).map (fun i => (k + 1) + i), ?_, ?_⟩
  · rw [hn, List.range_add, List.range_succ]
    simp
  · intro j hj
    obtain ⟨i, _, rfl⟩ := List.mem_map.1 hj
    omega

/-- What one full pass leaves at position `k`: the update of `k` performed on
the intermediate state in which all positions below `k` already hold their
end-of-pass value and all others still hold their start-of-pass value. -/
theorem onePass_at {n k : Nat} (h : k < n) (st : DfState) :
    onePass g kl pr n st k =
      upd g kl pr k (passL g kl pr (List.range k) st) k ∧
    (∀ p, p < k → passL g kl pr (List.range k) st p = onePass g kl pr n st p) ∧
    (∀ p, k ≤ p → passL g kl pr (List.range k) st p = st p) := by
  obtain ⟨M, hM, hMgt⟩ := range_split h
  have hsplit : onePass g kl pr n st =
      passL g kl pr M (upd g kl pr k (passL g kl pr (List.range k) st)) := by
    show passL g kl pr (List.range n) st = _
    rw [hM, passL_append]
    rfl
  refine ⟨?_, ?_, ?_⟩
  · rw [hsplit]
    have hkM : k ∉ M := fun hk => lt_irrefl k (hMgt k hk)
    rw [passL_not_mem g kl pr M _ hkM]
  · intro p hp
    rw [hsplit]
    have h1 : p ∉ M := fun hm => absurd (hMgt p hm) (by omega)
    rw [passL_not_mem g kl pr M _ h1, upd_apply_ne g kl pr k _ (by omega)]
  · intro p hp
    exact passL_not_mem g kl pr _ _ (by simp; omega)

/-- The invariant of the sweep: every IN set is below the union of its
predecessors' OUT sets, and every OUT set below `GEN ∪ (IN \ KILL)`. -/
def DfInv (st : DfState) : Prop :=
  ∀ k, (st k).1 ⊆ outUnion st (pr k) ∧ (st k).2 ⊆ g k ∪ ((st k).1 \ kl k)

theorem DfInv_init : DfInv g kl pr (fun _ => (∅, ∅)) := by
  intro k
  exact ⟨Finset.empty_subset _, Finset.empty_subset _⟩

theorem DfInv_upd (j : Nat) {st : DfState} (h : DfInv g kl pr st) :
    DfInv g kl pr (upd g kl pr j st) := by
  intro k
  have hle := upd_le g kl pr j st
  by_cases hkj : k = j
  · subst hkj
    constructor
    · rw [upd_fst]
      apply Finset.union_subset
      · exact ((h k).1).trans (outUnion_mono hle (pr k))
      · exact outUnion_mono hle (pr k)
    · rw [upd_snd, upd_fst]
      apply Finset.union_subset
      · refine ((h k).2).trans (Finset.union_subset_union subset_rfl ?_)
        exact Finset.sdiff_subset_sdiff Finset.subset_union_left subset_rfl
      · exact subset_rfl
  · rw [upd_apply_ne g kl pr j st hkj]
    exact ⟨((h k).1).trans (outUnion_mono hle (pr k)), (h k).2⟩

theorem DfInv_passL (l : List Nat) {st : DfState} (h : DfInv g kl pr st) :
    DfInv g kl pr (passL g kl pr l st) := by
  induction l generalizing st with
  | nil => exact h
  | cons j l ih => exact ih (DfInv_upd g kl pr j h)

theorem DfInv_iter (n m : Nat) : DfInv g kl pr (dfIter g kl pr n m) := by
  induction m with
  | zero => exact DfInv_init g kl pr
  | succ m ih => exact DfInv_passL g kl pr _ ih

/-- The fixed-point equations at the state in which the pass-2 loop exits:
if the pass from `st = dfIter … m` to `st' = onePass … st` changes no OUT set,
then at `st'` every position `k < n` satisfies both
`OUT k = GEN k ∪ (IN k \ KILL k)` and `IN k = ⋃ p ∈ preds k, OUT p`. -/
theorem fix_equations {n : Nat} (hp : ∀ k < n, ∀ p ∈ pr k, p < n) (m : Nat)
    (hfix : outsEq n (dfIter g kl pr n m) (onePass g kl pr n (dfIter g kl pr n m))) :
    ∀ k < n,
      (onePass g kl pr n (dfIter g kl pr n m) k).2 =
        g k ∪ ((onePass g kl pr n (dfIter g kl pr n m) k).1 \ kl k) ∧
      (onePass g kl pr n (dfIter g kl pr n m) k).1 =
        outUnion (onePass g kl pr n (dfIter g kl pr n m)) (pr k) := by
  intro k hk
  set st := dfIter g kl pr n m with hst
  set st' := onePass g kl pr n st with hst'
  obtain ⟨hat, hlow, hhigh⟩ := onePass_at g kl pr hk st
  set st₁ := passL g kl pr (List.range k) st with hst₁
  have hat2 : st' k = upd g kl pr k st₁ k := hat
  have hmid : ∀ p ∈ pr k, (st₁ p).2 = (st' p).2 := by
    intro p hmem
    by_cases hpk : p < k
    · rw [hlow p hpk]
    · rw [hhigh p (by omega)]
      exact hfix p (hp k hk p hmem)
  have hk1 : (st₁ k).1 = (st k).1 := by rw [hhigh k le_rfl]
  have hk2 : (st₁ k).2 = (st k).2 := by rw [hhigh k le_rfl]
  have hcong : outUnion st₁ (pr k) = outUnion st' (pr k) := outUnion_congr (pr k) hmid
  have h1 : (st' k).1 = (st k).1 ∪ outUnion st' (pr k) := by
    rw [hat2, upd_fst, hk1, hcong]
  have h2 : (st' k).2 = (st k).2 ∪ (g k ∪ ((st' k).1 \ kl k)) := by
    rw [hat2, upd_snd, hk2, hk1, hcong, ← h1, ← hat2]
  have hInv : DfInv g kl pr st := DfInv_iter g kl pr n m
  have hInv' : DfInv g kl pr st' := DfInv_passL g kl pr _ hInv
  constructor
  · apply Finset.Subset.antisymm
    · exact (hInv' k).2
    · rw [h2]
      exact Finset.subset_union_right
  · apply Finset.Subset.antisymm
    · exact (hInv' k).1
    · rw [h1]
      exact Finset.subset_union_right

/-- Bounded states: all IN/OUT elements are catalog indices. -/
def DfBd (n : Nat) (st : DfState) : Prop :=
  ∀ k, (st k).1 ⊆ Finset.range n ∧ (st k).2 ⊆ Finset.range n

theorem outUnion_bd {n : Nat} {st : DfState} (h : DfBd n st) (l : List Nat) :
    outUnion st l ⊆ Finset.range n := by
  induction l with
  | nil => exact Finset.empty_subset _
  | cons p l ih => exact Finset.union_subset (h p).2 ih

theorem DfBd_init (n : Nat) : DfBd n (fun _ => (∅, ∅)) :=
  fun _ => ⟨Finset.empty_subset _, Finset.empty_subset _⟩

theorem DfBd_upd {n : Nat} (hg : ∀ k < n, g k ⊆ Finset.range n) {k : Nat}
    (hk : k < n) {st : DfState} (h : DfBd n st) : DfBd n (upd g kl pr k st) := by
  intro j
  by_cases hjk : j = k
  · subst hjk
    constructor
    · rw [upd_fst]
      exact Finset.union_subset (h j).1 (outUnion_bd h (pr j))
    · rw [upd_snd]
      refine Finset.union_subset (h j).2 (Finset.union_subset (hg j hk) ?_)
      exact (Finset.sdiff_subset).trans
        (Finset.union_subset (h j).1 (outUnion_bd h (pr j)))
  · rw [upd_apply_ne g kl pr k st hjk]
    exact h j

theorem DfBd_passL {n : Nat} (hg : ∀ k < n, g k ⊆ Finset.range n) (l : List Nat)
    (hl : ∀ k ∈ l, k < n) {st : DfState} (h : DfBd n st) :
    DfBd n (passL g kl pr l st) := by
  induction l generalizing st with
  | nil => exact h
  | cons j l ih =>
    exact ih (fun k hk => hl k (List.mem_cons_of_mem j hk))
      (DfBd_upd g kl pr hg (hl j (List.mem_cons_self j l)) h)

theorem DfBd_onePass {n : Nat} (hg : ∀ k < n, g k ⊆ Finset.range n)
    {st : DfState} (h : DfBd n st) : DfBd n (onePass g kl pr n st) :=
  DfBd_passL g kl pr hg _ (fun _ hk => List.mem_range.1 hk) h

theorem DfBd_iter {n : Nat} (hg : ∀ k < n, g k ⊆ Finset.range n) (m : Nat) :
    DfBd n (dfIter g kl pr n m) := by
  induction m with
  | zero => exact DfBd_init n
  | succ m ih => exact DfBd_onePass g kl pr hg ih

/-- The total OUT cardinality, the measure of the fixed-point loop. -/
def dfTotal (n : Nat) (st : DfState) : Nat :=
  ∑ k ∈ Finset.range n, ((st k).2).card

theorem dfTotal_lt {n : Nat} {st st' : DfState} (hle : DfLe st st')
    (hne : ¬ outsEq n st st') : dfTotal n st < dfTotal n st' := by
  unfold outsEq at hne
  push_neg at hne
  obtain ⟨k, hk, hkne⟩ := hne
  refine Finset.sum_lt_sum (fun i _ => Finset.card_le_card (hle i).2) ?_
  exact ⟨k, Finset.mem_range.2 hk, Finset.card_lt_card (ssubset_of_subset_of_ne (hle k).2 hkne)⟩

theorem dfTotal_le {n : Nat} {st : DfState} (h : DfBd n st) :
    dfTotal n st ≤ n * n := by
  calc dfTotal n st ≤ ∑ _k ∈ Finset.range n, n :=
        Finset.sum_le_sum (fun i _ =>
          (Finset.card_le_card (h i).2).trans (le_of_eq (Finset.card_range n)))
    _ = n * n := by simp [Finset.sum_const, Finset.card_range, Nat.mul_comm]

/-- The pass-2 loop always exits through its no-OUT-change test: given enough
fuel (and `n² + 1` always is enough, since each earlier pass strictly grows
`dfTotal`, which `DfBd` caps at `n²`), the loop returns the pass successor of
some iterate on which the pass changed no OUT set. In particular the C++
`do … while (out_has_changed)` loop terminates on every input and `dfLoop`
with that fuel computes exactly the state in which it exits. -/
theorem dfLoop_exit {n : Nat} (hg : ∀ k < n, g k ⊆ Finset.range n) :
    ∀ fuel m, n * n + 1 ≤ dfTotal n (dfIter g kl pr n m) + fuel →
    ∃ m', dfLoop g kl pr n fuel (dfIter g kl pr n m) = dfIter g kl pr n (m' + 1) ∧
      outsEq n (dfIter g kl pr n m') (dfIter g kl pr n (m' + 1)) := by
  intro fuel
  induction fuel with
  | zero =>
    intro m hm
    exact absurd (dfTotal_le (DfBd_iter g kl pr hg m)) (by omega)
  | succ fuel ih =>
    intro m hm
    by_cases h : outsEq n (dfIter g kl pr n m) (onePass g kl pr n (dfIter g kl pr n m))
    · refine ⟨m, ?_, h⟩
      simp only [dfLoop]
      rw [if_pos h]
      rfl
    · have hlt : dfTotal n (dfIter g kl pr n m) < dfTotal n (dfIter g kl pr n (m + 1)) :=
        dfTotal_lt (passL_le g kl pr (List.range n) _) h
      obtain ⟨m', hm1, hm2⟩ := ih (m + 1) (by omega)
      refine ⟨m', ?_, hm2⟩
      simp only [dfLoop]
      rw [if_neg h]
      exact hm1

end Dataflow

/-! ### Structural lemmas about pass 1

Every pass-1 step has the same shape: some already-built entries gain the new
index in their KILL sets (`addKill`) and one new entry is appended, whose GEN
set is its own index and whose KILL set holds only earlier positions.
Identity, instruction, GEN and alias of an entry never change once built, and
KILL sets only ever grow. -/

theorem addKill_length (st : List Entry) (ks : Finset Nat) (idx : Nat) :
    (addKill st ks idx).length = st.length :=
  List.length_mapIdx

theorem addKill_get? (st : List Entry) (ks : Finset Nat) (idx i : Nat) {e : Entry}
    (he : st.get? i = some e) :
    (addKill st ks idx).get? i =
      some (if i ∈ ks then { e with kill := insert idx e.kill } else e) := by
  have hi : i < st.length := by
    by_contra h
    rw [List.get?_eq_none.2 (by omega)] at he
    exact Option.noConfusion he
  have hi' : i < (addKill st ks idx).length := by rw [addKill_length]; exact hi
  rw [List.get?_eq_get hi']
  show some ((List.mapIdx _ st).get ⟨i, hi'⟩) = _
  rw [List.get_mapIdx st _ i hi]
  rw [List.get?_eq_get hi] at he
  simp only [Option.some.injEq] at he
  rw [he]

theorem addKill_empty (st : List Entry) (idx : Nat) : addKill st ∅ idx = st := by
  show List.mapIdx _ st = st
  rw [List.mapIdx_eq_ofFn]
  simp only [Finset.not_mem_empty, if_false]
  exact List.ofFn_get st

theorem pairsSet_subset {l : List (Nat × Nat)} {n : Nat}
    (h : ∀ pr ∈ l, (pr : Nat × Nat).1 < n ∧ pr.2 < n) :
    pairsSet l ⊆ Finset.range n := by
  induction l with
  | nil => exact Finset.empty_subset _
  | cons pr l ih =>
    intro x hx
    rcases Finset.mem_insert.1 hx with h1 | hx'
    · exact Finset.mem_range.2 (h1 ▸ (h pr (List.mem_cons_self pr l)).1)
    · rcases Finset.mem_insert.1 hx' with h2 | hx''
      · exact Finset.mem_range.2 (h2 ▸ (h pr (List.mem_cons_self pr l)).2)
      · exact ih (fun q hq => h q (List.mem_cons_of_mem pr hq)) hx''

theorem aliasPairs_mem {st : List Entry} {args : List Val} {pr : Nat × Nat}
    (h : pr ∈ aliasPairs st args) : pr.1 < st.length ∧ pr.2 < st.length := by
  obtain ⟨i, hi, hmap⟩ := List.mem_filterMap.1 h
  have hi' : i < st.length := List.mem_range.1 hi
  rcases hst : st.get? i with _ | e <;> rw [hst] at hmap <;> dsimp only at hmap
  · exact absurd hmap (by simp)
  by_cases hsa : storeArgTest args e = true
  · rw [if_pos hsa] at hmap
    rcases hav : e.aliasVal with _ | av <;> rw [hav] at hmap <;> dsimp only at hmap
    · exact absurd hmap (by simp)
    rcases hfind : aliasFind st i av with _ | k <;> rw [hfind] at hmap
    · exact absurd hmap (by simp)
    simp only [Option.map_some', Option.some.injEq] at hmap
    have hk : k ∈ List.range i := List.mem_of_find?_eq_some hfind
    have hk' : k < i := List.mem_range.1 hk
    rw [← hmap]
    exact ⟨hi', by omega⟩
  · rw [if_neg hsa] at hmap
    exact absurd hmap (by simp)

theorem opaqueKills_subset (st : List Entry) (args : List Val) :
    opaqueKills st args ⊆ Finset.range st.length :=
  Finset.union_subset (Finset.filter_subset _ _)
    (pairsSet_subset (fun _ hpr => aliasPairs_mem hpr))

/-- The common shape of one pass-1 step. -/
theorem pass1Step_spec (F : Func) (st : List Entry) (q : Nat × Instr) :
    ∃ ks ov, ks ⊆ Finset.range st.length ∧
      pass1Step F st q =
        addKill st ks st.length ++ [⟨q.1, q.2, ov, {st.length}, ks⟩] := by
  have hsel : ∀ p : Entry → Bool, entSel st p ⊆ Finset.range st.length :=
    fun p => Finset.filter_subset _ _
  obtain ⟨qid, qi⟩ := q
  cases qi with
  | call fname args =>
    by_cases h1 : fname ∈ API ∧ fname ≠ "CAT_get"
    · refine ⟨entSel st (fun e => isKilledBy F (e.id, e.instr) (.call fname args)),
        none, hsel _, ?_⟩
      simp only [pass1Step, if_pos h1]
    · by_cases h2 : fname ∈ API
      · refine ⟨∅, none, Finset.empty_subset _, ?_⟩
        simp only [pass1Step, if_neg h1,
          if_neg (show ¬ fname ∉ API from not_not_intro h2)]
        rw [addKill_empty]
      · refine ⟨opaqueKills st args, none, opaqueKills_subset st args, ?_⟩
        simp only [pass1Step, if_neg h1, if_pos h2]
  | phi inc =>
    exact ⟨entSel st (fun e => defines e.instr e.id (Val.inst qid)), none, hsel _, rfl⟩
  | store v p =>
    refine ⟨∅, some v, Finset.empty_subset _, ?_⟩
    show st ++ _ = _
    rw [addKill_empty]
  | load p =>
    refine ⟨entSel st (fun e =>
      match e.instr with
      | .store _ sp => decide (sp = p)
      | _ => false), none, hsel _, rfl⟩
  | br ts =>
    refine ⟨∅, none, Finset.empty_subset _, ?_⟩
    show st ++ _ = _
    rw [addKill_empty]
  | other =>
    refine ⟨∅, none, Finset.empty_subset _, ?_⟩
    show st ++ _ = _
    rw [addKill_empty]

theorem pass1Step_length (F : Func) (st : List Entry) (q : Nat × Instr) :
    (pass1Step F st q).length = st.length + 1 := by
  obtain ⟨ks, ov, -, hform⟩ := pass1Step_spec F st q
  rw [hform, List.length_append, addKill_length]
  rfl

/-- Entries already built keep identity, instruction, GEN and alias through a
step; their KILL sets can only gain the new index. -/
theorem pass1Step_get_old (F : Func) (st : List Entry) (q : Nat × Instr) {i : Nat}
    {e : Entry} (he : st.get? i = some e) :
    ∃ e', (pass1Step F st q).get? i = some e' ∧ e'.id = e.id ∧ e'.instr = e.instr ∧
      e'.gen = e.gen ∧ e'.aliasVal = e.aliasVal ∧ e.kill ⊆ e'.kill ∧
      e'.kill ⊆ insert st.length e.kill := by
  have hi : i < st.length := by
    by_contra h
    rw [List.get?_eq_none.2 (by omega)] at he
    exact Option.noConfusion he
  obtain ⟨ks, ov, -, hform⟩ := pass1Step_spec F st q
  rw [hform, List.get?_append (by rw [addKill_length]; exact hi),
    addKill_get? st ks st.length i he]
  by_cases hks : i ∈ ks
  · rw [if_pos hks]
    exact ⟨_, rfl, rfl, rfl, rfl, rfl, Finset.subset_insert _ _, subset_rfl⟩
  · rw [if_neg hks]
    exact ⟨e, rfl, rfl, rfl, rfl, rfl, subset_rfl, Finset.subset_insert _ _⟩

/-- The step appends a new entry at position `st.length`, generating itself and
killing only earlier positions. -/
theorem pass1Step_get_new (F : Func) (st : List Entry) (q : Nat × Instr) :
    ∃ ks ov, ks ⊆ Finset.range st.length ∧
      (pass1Step F st q).get? st.length = some ⟨q.1, q.2, ov, {st.length}, ks⟩ := by
  obtain ⟨ks, ov, hks, hform⟩ := pass1Step_spec F st q
  refine ⟨ks, ov, hks, ?_⟩
  rw [hform]
  have hcat := List.get?_concat_length (addKill st ks st.length)
    (⟨q.1, q.2, ov, {st.length}, ks⟩ : Entry)
  rw [addKill_length] at hcat
  exact hcat

theorem pass1_fold_length (F : Func) (cat : List (Nat × Instr)) (st : List Entry) :
    (cat.foldl (pass1Step F) st).length = st.length + cat.length := by
  induction cat generalizing st with
  | nil => rfl
  | cons q rest ih =>
    show (rest.foldl (pass1Step F) (pass1Step F st q)).length = _
    rw [ih, pass1Step_length]
    simp [Nat.add_comm, Nat.add_assoc, Nat.add_left_comm]

theorem pass1_fold_stable (F : Func) (cat : List (Nat × Instr)) (st : List Entry)
    {i : Nat} {e : Entry} (he : st.get? i = some e) :
    ∃ e', (cat.foldl (pass1Step F) st).get? i = some e' ∧ e'.id = e.id ∧
      e'.instr = e.instr ∧ e'.gen = e.gen ∧ e'.aliasVal = e.aliasVal ∧
      e.kill ⊆ e'.kill := by
  induction cat generalizing st e with
  | nil => exact ⟨e, he, rfl, rfl, rfl, rfl, subset_rfl⟩
  | cons q rest ih =>
    obtain ⟨e1, he1, h1, h2, h3, h4, h5, -⟩ := pass1Step_get_old F st q he
    obtain ⟨e', he', h1', h2', h3', h4', h5'⟩ := ih (pass1Step F st q) he1
    exact ⟨e', he', h1'.trans h1, h2'.trans h2, h3'.trans h3, h4'.trans h4,
      h5.trans h5'⟩

/-- The entry built for catalog item `k` (processed on top of `st`) sits at
position `st.length + k`, carries that item's identity and instruction, and
generates exactly its own position. -/
theorem pass1_fold_entry (F : Func) (cat : List (Nat × Instr)) (st : List Entry)
    {k : Nat} {q : Nat × Instr} (hq : cat.get? k = some q) :
    ∃ e', (cat.foldl (pass1Step F) st).get? (st.length + k) = some e' ∧
      e'.id = q.1 ∧ e'.instr = q.2 ∧ e'.gen = {st.length + k} := by
  induction cat generalizing st k with
  | nil => exact absurd hq (by simp)
  | cons q0 rest ih =>
    cases k with
    | zero =>
      have hq0 : q0 = q := by
        simpa using hq
      subst hq0
      obtain ⟨ks, ov, -, hnew⟩ := pass1Step_get_new F st q0
      obtain ⟨e', he', h1, h2, h3, -, -⟩ :=
        pass1_fold_stable F rest (pass1Step F st q0) hnew
      exact ⟨e', by simpa using he', h1, h2, by simpa using h3⟩
    | succ k =>
      have hq' : rest.get? k = some q := by simpa using hq
      obtain ⟨e', he', h1, h2, h3⟩ := ih (pass1Step F st q0) hq'
      rw [pass1Step_length] at he' h3
      refine ⟨e', ?_, h1, h2, ?_⟩
      · rw [show st.length + (k + 1) = st.length + 1 + k by omega]
        exact he'
      · rw [show st.length + (k + 1) = st.length + 1 + k by omega]
        exact h3

/-- GEN and KILL sets stay within the built length. -/
theorem pass1_fold_bound (F : Func) (cat : List (Nat × Instr)) (st : List Entry)
    (hst : ∀ i e, st.get? i = some e →
      e.gen ⊆ Finset.range st.length ∧ e.kill ⊆ Finset.range st.length) :
    ∀ i e, (cat.foldl (pass1Step F) st).get? i = some e →
      e.gen ⊆ Finset.range (cat.foldl (pass1Step F) st).length ∧
      e.kill ⊆ Finset.range (cat.foldl (pass1Step F) st).length := by
  induction cat generalizing st with
  | nil => exact hst
  | cons q rest ih =>
    refine ih (pass1Step F st q) ?_
    intro i e he
    rw [pass1Step_length]
    obtain ⟨ks, ov, hks, hform⟩ := pass1Step_spec F st q
    rw [hform] at he
    by_cases hi : i < st.length
    · rw [List.get?_append (by rw [addKill_length]; exact hi)] at he
      obtain ⟨e0, hst0⟩ : ∃ e0, st.get? i = some e0 :=
        ⟨st.get ⟨i, hi⟩, List.get?_eq_get hi⟩
      rw [addKill_get? st ks st.length i hst0] at he
      obtain ⟨hgen, hkill⟩ := hst i e0 hst0
      by_cases hksi : i ∈ ks
      · rw [if_pos hksi] at he
        cases he
        constructor
        · exact hgen.trans (Finset.range_subset.2 (by omega))
        · show insert st.length e0.kill ⊆ _
          refine Finset.insert_subset (Finset.mem_range.2 (by omega)) ?_
          exact hkill.trans (Finset.range_subset.2 (by omega))
      · rw [if_neg hksi] at he
        cases he
        exact ⟨hgen.trans (Finset.range_subset.2 (by omega)),
          hkill.trans (Finset.range_subset.2 (by omega))⟩
    · have hi2 : i = st.length ∨ st.length + 1 ≤ i := by omega
      rcases hi2 with rfl | hi2
      · have hcat := List.get?_concat_length (addKill st ks st.length)
          (⟨q.1, q.2, ov, {st.length}, ks⟩ : Entry)
        rw [addKill_length] at hcat
        rw [hcat] at he
        cases he
        constructor
        · show ({st.length} : Finset Nat) ⊆ _
          simp [Finset.singleton_subset_iff]
        · show ks ⊆ _
          exact hks.trans (Finset.range_subset.2 (by omega))
      · rw [List.get?_eq_none.2 (by simp [addKill_length]; omega)] at he
        exact Option.noConfusion he

theorem pass1_length (F : Func) : (pass1 F).length = numCat F := by
  show ((catInsts F).foldl (pass1Step F) []).length = numCat F
  rw [pass1_fold_length]
  simp [numCat]

/-- Pass 1 gives *every* catalogued instruction, definition or not, the GEN
set `{own index}` (line 341 runs unconditionally). -/
theorem genAt_eq (F : Func) {k : Nat} (hk : k < numCat F) : genAt F k = {k} := by
  obtain ⟨q, hq⟩ : ∃ q, (catInsts F).get? k = some q :=
    ⟨(catInsts F).get ⟨k, hk⟩, List.get?_eq_get hk⟩
  obtain ⟨e', he', -, -, hgen⟩ := pass1_fold_entry F (catInsts F) [] hq
  simp only [List.length_nil, Nat.zero_add] at he' hgen
  have he'' : (pass1 F).get? k = some e' := he'
  rw [genAt, he'']
  exact hgen

/-- The identity and instruction of the pass-1 entry at a catalog position are
that position's catalog item. -/
theorem pass1_entry_at (F : Func) {k : Nat} {q : Nat × Instr}
    (hq : (catInsts F).get? k = some q) :
    ∃ e, (pass1 F).get? k = some e ∧ e.id = q.1 ∧ e.instr = q.2 := by
  obtain ⟨e', he', h1, h2, -⟩ := pass1_fold_entry F (catInsts F) [] hq
  simp only [List.length_nil, Nat.zero_add] at he'
  exact ⟨e', he', h1, h2⟩

/-- GEN sets are sets of catalog indices. -/
theorem genAt_bound (F : Func) (k : Nat) : genAt F k ⊆ Finset.range (numCat F) := by
  rw [genAt]
  rcases he : (pass1 F).get? k with _ | e
  · exact Finset.empty_subset _
  · have hb := pass1_fold_bound F (catInsts F) [] (by intro i e h; simp at h) k e he
    rw [← pass1_length F]
    exact hb.1

/-- KILL sets are sets of catalog indices. -/
theorem killAt_bound (F : Func) (k : Nat) : killAt F k ⊆ Finset.range (numCat F) := by
  rw [killAt]
  rcases he : (pass1 F).get? k with _ | e
  · exact Finset.empty_subset _
  · have hb := pass1_fold_bound F (catInsts F) [] (by intro i e h; simp at h) k e he
    rw [← pass1_length F]
    exact hb.2

/-- A positive `isKilledBy` verdict forces the killer to be a
`CAT_add`/`CAT_sub`/`CAT_set` call. -/
theorem isKilledBy_shape {F : Func} {L : Nat × Instr} {R : Instr}
    (h : isKilledBy F L R = true) :
    ∃ nm args, R = .call nm args ∧
      (nm = "CAT_add" ∨ nm = "CAT_sub" ∨ nm = "CAT_set") := by
  cases R with
  | call nm args =>
    refine ⟨nm, args, rfl, ?_⟩
    by_contra hnm
    rw [isKilledBy, if_neg hnm] at h
    exact Bool.noConfusion h
  | phi inc => exact Bool.noConfusion h
  | store v p => exact Bool.noConfusion h
  | load p => exact Bool.noConfusion h
  | br ts => exact Bool.noConfusion h
  | other => exact Bool.noConfusion h

/-- The step for a CAT API call other than `CAT_get`: kills per `isKilledBy`,
recorded in both directions. -/
theorem pass1Step_api (F : Func) (st : List Entry) {q : Nat × Instr}
    {nm : String} {args : List Val} (hq : q.2 = .call nm args)
    (hnm : nm ∈ API ∧ nm ≠ "CAT_get") :
    pass1Step F st q =
      addKill st (entSel st (fun e => isKilledBy F (e.id, e.instr) q.2)) st.length ++
        [⟨q.1, q.2, none, {st.length},
          entSel st (fun e => isKilledBy F (e.id, e.instr) q.2)⟩] := by
  obtain ⟨qid, qi⟩ := q
  simp only at hq
  subst hq
  simp only [pass1Step, if_pos hnm]

/-- Kill symmetry as pass 1 actually establishes it: whenever the *later*
of the two catalogued instructions kills the earlier one per `isKilledBy`,
both KILL sets record the pair. -/
theorem pass1_kill_pair (F : Func) {i j : Nat} {Li Rj : Nat × Instr}
    (hij : i < j) (hLi : (catInsts F).get? i = some Li)
    (hRj : (catInsts F).get? j = some Rj)
    (hkill : isKilledBy F Li Rj.2 = true) :
    j ∈ killAt F i ∧ i ∈ killAt F j := by
  obtain ⟨nm, args, hshape, hnm3⟩ := isKilledBy_shape hkill
  have hj : j < (catInsts F).length := by
    by_contra h
    rw [List.get?_eq_none.2 (by omega)] at hRj
    exact Option.noConfusion hRj
  have hnm : nm ∈ API ∧ nm ≠ "CAT_get" := by
    rcases hnm3 with h | h | h <;> subst h <;> exact ⟨by decide, by decide⟩
  -- decompose the catalog around position j
  have hget : (catInsts F).get ⟨j, hj⟩ = Rj := by
    rw [List.get?_eq_get hj] at hRj
    exact Option.some.inj hRj
  have hsplit : catInsts F = (catInsts F).take j ++ Rj :: (catInsts F).drop (j + 1) := by
    conv_lhs => rw [← List.take_append_drop j (catInsts F)]
    rw [List.drop_eq_get_cons hj, hget]
  set stj := ((catInsts F).take j).foldl (pass1Step F) ([] : List Entry) with hstj
  have hstjlen : stj.length = j := by
    rw [hstj, pass1_fold_length, List.length_take]
    simp
    omega
  -- the entry for the killed instruction inside `stj`
  have hLi' : ((catInsts F).take j).get? i = some Li := by
    rw [List.get?_take hij]
    exact hLi
  obtain ⟨ei, hei, hid, hinstr, -⟩ := pass1_fold_entry F ((catInsts F).take j) [] hLi'
  simp only [List.length_nil, Nat.zero_add] at hei
  rw [← hstj] at hei
  -- the kill filter selects position i while processing Rj
  have hks : i ∈ entSel stj (fun e => isKilledBy F (e.id, e.instr) Rj.2) := by
    rw [entSel, Finset.mem_filter, Finset.mem_range]
    refine ⟨by omega, ?_⟩
    unfold entTest
    rw [hei]
    show isKilledBy F (ei.id, ei.instr) Rj.2 = true
    rw [hid, hinstr]
    exact hkill
  have hform := pass1Step_api F stj hshape hnm
  rw [hstjlen] at hform
  set ks := entSel stj (fun e => isKilledBy F (e.id, e.instr) Rj.2) with hksdef
  set st' := pass1Step F stj Rj with hst'
  -- the whole pass is the fold of the remaining suffix on top of st'
  have hpass : pass1 F = ((catInsts F).drop (j + 1)).foldl (pass1Step F) st' := by
    show (catInsts F).foldl (pass1Step F) [] = _
    conv_lhs => rw [hsplit]
    rw [List.foldl_append]
    rfl
  -- position i of st' has gained j in its KILL set
  have hik : st'.get? i = some ⟨ei.id, ei.instr, ei.aliasVal, ei.gen, insert j ei.kill⟩ := by
    rw [hform, List.get?_append (by rw [addKill_length]; omega),
      addKill_get? stj ks j i hei, if_pos hks]
  -- position j of st' is the new entry, whose KILL set holds i
  have hjk : st'.get? j = some ⟨Rj.1, Rj.2, none, {j}, ks⟩ := by
    have hcat := List.get?_concat_length (addKill stj ks j)
      (⟨Rj.1, Rj.2, none, {j}, ks⟩ : Entry)
    rw [addKill_length, hstjlen] at hcat
    rw [hform]
    exact hcat
  constructor
  · obtain ⟨efin, hefin, -, -, -, -, hsub⟩ :=
      pass1_fold_stable F ((catInsts F).drop (j + 1)) st' hik
    have hefin' : (pass1 F).get? i = some efin := by rw [hpass]; exact hefin
    rw [killAt, hefin']
    exact hsub (Finset.mem_insert_self j ei.kill)
  · obtain ⟨efin, hefin, -, -, -, -, hsub⟩ :=
      pass1_fold_stable F ((catInsts F).drop (j + 1)) st' hjk
    have hefin' : (pass1 F).get? j = some efin := by rw [hpass]; exact hefin
    rw [killAt, hefin']
    exact hsub hks

/-! ### The predecessor positions are catalog indices -/

theorem findIdx?_lt_len {α : Type} {p : α → Bool} :
    ∀ {l : List α} {i : Nat}, l.findIdx? p = some i → i < l.length := by
  intro l
  induction l with
  | nil => intro i h; simp [List.findIdx?] at h
  | cons x xs ih =>
    intro i h
    rw [List.findIdx?_cons] at h
    by_cases hp : p x
    · simp [hp] at h
      subst h
      simp
    · simp [hp] at h
      obtain ⟨j, hj, rfl⟩ := h
      have := ih hj
      simp
      omega

theorem termIdx_lt {F : Func} {b p : Nat} (h : termIdx F b = some p) :
    p < numCat F := by
  rw [termIdx] at h
  rcases ht : termId F b with _ | tid <;> rw [ht] at h
  · exact Option.noConfusion h
  · exact findIdx?_lt_len h

theorem predIdxs_bound (F : Func) {k : Nat} (hk : k < numCat F) :
    ∀ p ∈ predIdxs F k, p < numCat F := by
  intro p hp
  rw [predIdxs] at hp
  rcases hlk : (startsAssoc F).lookup k with _ | b <;> rw [hlk] at hp
  · by_cases hk0 : k = 0
    · rw [if_pos hk0] at hp
      exact absurd hp (by simp)
    · rw [if_neg hk0] at hp
      have : p = k - 1 := by simpa using hp
      omega
  · obtain ⟨b', -, hb'⟩ := List.mem_filterMap.1 hp
    exact termIdx_lt hb'

/-! ### Boundedness of the computed IN/OUT sets -/

/-- Every state pass 2 ever holds only mentions catalog indices. -/
theorem dfIterF_bounded (F : Func) (m : Nat) :
    DfBd (numCat F) (dfIterF F m) :=
  DfBd_iter (genAt F) (killAt F) (predIdxs F)
    (fun k _ => genAt_bound F k) m

/-- The fuel supplied in `dfFixF` always suffices: the state returned is the
pass successor of an iterate on which the pass changed no OUT set — exactly
the state in which the C++ `do … while` loop terminates. -/
theorem dfFixF_reached (F : Func) :
    ∃ m, dfFixF F = dfIterF F (m + 1) ∧
      outsEq (numCat F) (dfIterF F m) (dfIterF F (m + 1)) := by
  have h := dfLoop_exit (genAt F) (killAt F) (predIdxs F)
    (n := numCat F) (fun k _ => genAt_bound F k) (numCat F ^ 2 + 1) 0
    (by rw [Nat.pow_two]; omega)
  obtain ⟨m, h1, h2⟩ := h
  exact ⟨m, h1, h2⟩

/-! ### Counting helpers for the unreachable-exclusion argument -/

theorem get?_le_sum : ∀ (l : List Nat) (i x : Nat), l.get? i = some x → x ≤ l.sum := by
  intro l
  induction l with
  | nil => intro i x h; exact absurd h (by simp)
  | cons y ys ih =>
    intro i x h
    cases i with
    | zero =>
      have : y = x := by simpa using h
      subst this
      simp
    | succ i =>
      have hx := ih i x (by simpa using h)
      simp
      omega

theorem get?_two_le_sum : ∀ (l : List Nat) (i j x y : Nat), i < j →
    l.get? i = some x → l.get? j = some y → x + y ≤ l.sum := by
  intro l
  induction l with
  | nil => intro i j x y hij h; exact absurd h (by simp)
  | cons z zs ih =>
    intro i j x y hij hx hy
    cases i with
    | zero =>
      have hz : z = x := by simpa using hx
      subst hz
      cases j with
      | zero => omega
      | succ j =>
        have hy' := get?_le_sum zs j y (by simpa using hy)
        simp
        omega
    | succ i =>
      cases j with
      | zero => omega
      | succ j =>
        have := ih i j x y (by omega) (by simpa using hx) (by simpa using hy)
        simp
        omega

theorem count_flatten_eq_sum {α : Type} [DecidableEq α] (a : α) :
    ∀ L : List (List α), (L.flatten).count a = (L.map (List.count a)).sum := by
  intro L
  induction L with
  | nil => rfl
  | cons l ls ih =>
    rw [List.flatten_cons, List.count_append, ih]
    rfl

/-! ### Concrete programs used as witnesses and counterexamples -/

/-- `x = CAT_new(2^32); y = CAT_new(0); CAT_add(x, x, y); ret` — the folding
input exhibiting the 32-bit truncation (claim C1). -/
def F1 : Func :=
  ⟨[⟨[(0, .call "CAT_new" [.const 4294967296]),
      (1, .call "CAT_new" [.const 0]),
      (2, .call "CAT_add" [.inst 0, .inst 0, .inst 1]),
      (3, .other)]⟩]⟩

/-- A diamond whose join holds a phi over two `CAT_new(7)` from the two arms,
followed by `CAT_get(x)` where `x = CAT_new(5)` from the entry block — the
propagation input exhibiting the phi branch of `definesAsConstant` ignoring
which value it was asked about (claim C2). -/
def F2 : Func :=
  ⟨[⟨[(0, .call "CAT_new" [.const 5]), (1, .br [1, 2])]⟩,
    ⟨[(10, .call "CAT_new" [.const 7]), (11, .br [3])]⟩,
    ⟨[(20, .call "CAT_new" [.const 7]), (21, .br [3])]⟩,
    ⟨[(30, .phi [(1, .inst 10), (2, .inst 20)]),
      (31, .call "CAT_get" [.inst 0]),
      (32, .other)]⟩]⟩

/-- Entry branches to the *later* block `2` holding `x = CAT_new(5)`, which
branches back to block `1` holding `CAT_set(x, 7)`: valid control flow in
which the killer precedes the killed definition in layout order, so pass 1 —
which only tests each new instruction against *earlier* entries — records no
kill for the pair although `isKilledBy` holds (claim C5). -/
def F5 : Func :=
  ⟨[⟨[(0, .br [2])]⟩,
    ⟨[(1, .call "CAT_set" [.inst 3, .const 7]), (2, .other)]⟩,
    ⟨[(3, .call "CAT_new" [.const 5]), (4, .br [1])]⟩]⟩

/-- The phi instruction `A` of `F8` (loop header of the outer loop): merges
`x = CAT_new(5)` from the entry edge with `B` from the back edge. -/
def phiA : Instr := .phi [(0, .inst 0), (3, .inst 11)]

/-- The phi instruction `B` of `F8` (inner loop header): merges `C` from the
inner back edge with `A` from the outer body. -/
def phiB : Instr := .phi [(3, .inst 12), (1, .inst 10)]

/-- The phi instruction `C` of `F8` (inner latch). -/
def phiC : Instr := .phi [(2, .inst 11)]

/-- A loop nest with the phi web `A = phi [x, B]`, `B = phi [C, A]`,
`C = phi [B]` — every incoming value dominates its edge, so this is
verifier-clean IR. Resolving `A` (which reaches the `CAT_get(x)` right after
it) first resolves `x` to 5 and then walks into the `B`/`C` cycle, which never
revisits `A`, the only phi the sentinel guards (claim C8). -/
def F8 : Func :=
  ⟨[⟨[(0, .call "CAT_new" [.const 5]), (1, .br [1])]⟩,
    ⟨[(10, phiA), (13, .call "CAT_get" [.inst 0]), (14, .br [2])]⟩,
    ⟨[(11, phiB), (15, .br [3])]⟩,
    ⟨[(12, phiC), (16, .br [2, 1])]⟩]⟩

/-- `x = CAT_new(1); CAT_add(x, x, x); CAT_get(x); ret` — a reaching `CAT_add`
redefinition of the read operand (claims C10 and C2/C4 witnesses). -/
def F10 : Func :=
  ⟨[⟨[(0, .call "CAT_new" [.const 1]),
      (1, .call "CAT_add" [.inst 0, .inst 0, .inst 0]),
      (2, .call "CAT_get" [.inst 0]),
      (3, .other)]⟩]⟩

/-- `x = CAT_new(2); y = CAT_new(3); CAT_add(x, x, y); g = CAT_get(y); ret` —
a function with one planned propagation and one planned folding (claim C6
witness; spec §8 scenario B). -/
def F6 : Func :=
  ⟨[⟨[(0, .call "CAT_new" [.const 2]),
      (1, .call "CAT_new" [.const 3]),
      (2, .call "CAT_add" [.inst 0, .inst 0, .inst 1]),
      (3, .call "CAT_get" [.inst 1]),
      (4, .other)]⟩]⟩

/-- A function with an unreachable block: entry falls through to block 2;
block 1 (holding a `CAT_new` and a `CAT_set`) has no predecessor (claim C9
witness). -/
def F9 : Func :=
  ⟨[⟨[(0, .call "CAT_new" [.const 5]), (1, .br [2])]⟩,
    ⟨[(6, .call "CAT_new" [.const 9]), (7, .call "CAT_set" [.inst 6, .const 3]),
      (8, .br [2])]⟩,
    ⟨[(3, .call "CAT_get" [.inst 0]), (4, .other)]⟩]⟩


/-! ### Claim C8: the phi cycle guard only guards the original phi

The sentinel (`phiInst == originalPhi`) breaks recursion only when the walk
returns to the *first* phi seen. In `F8`, resolving `A` enters the cycle
`B → C → B → …`, which never revisits `A`: the recursion never returns, which
the fuel embedding renders as exhausting every fuel. -/

theorem dAC_F8_cycle : ∀ f,
    dAC F8 f 11 phiB (Val.inst 11) (some 10) = none ∧
    dAC F8 f 12 phiC (Val.inst 12) (some 10) = none := by
  have hB : F8.findInst 11 = some phiB := by decide
  have hC : F8.findInst 12 = some phiC := by decide
  intro f
  induction f with
  | zero => exact ⟨rfl, rfl⟩
  | succ f ih =>
    constructor
    · show dAC F8 (f + 1) 11 (.phi [(3, .inst 12), (1, .inst 10)]) (Val.inst 11)
        (some 10) = none
      rw [dAC]
      rw [if_neg (by decide)]
      rw [dACphiAux, hC]
      dsimp only
      rw [Option.getD_some, ih.2]
    · show dAC F8 (f + 1) 12 (.phi [(2, .inst 11)]) (Val.inst 12)
        (some 10) = none
      rw [dAC]
      rw [if_neg (by decide)]
      rw [dACphiAux, hB]
      dsimp only
      rw [Option.getD_some, ih.1]

set_option maxRecDepth 4000 in
/-- C8: the recursive `Merge`/phi constant resolution does *not* terminate on
every input: on `F8` — a verifier-clean loop nest — the call
`definesAsConstant(A, x)` that the planner makes while scanning the IN set of
the `CAT_get(x)` (the phi `A` sits at catalog index 2, in that IN set)
exhausts every recursion depth: it resolves the first incoming `x` to 5 and
then recurses forever through the `B`/`C` phi cycle, because the "visited"
sentinel only ever holds the original phi `A`. -/
theorem C8_phi_resolution_diverges :
    (∀ fuel, dAC F8 fuel 10 phiA (Val.inst 0) none = none) ∧
    (catInsts F8).get? 2 = some (10, phiA) ∧
    (catInsts F8).get? 3 = some (13, .call "CAT_get" [Val.inst 0]) ∧
    (2 : Nat) ∈ inAt F8 3 := by
  have hB : F8.findInst 11 = some phiB := by decide
  have hx : F8.findInst 0 = some (.call "CAT_new" [.const 5]) := by decide
  refine ⟨?_, by decide, by decide, by decide⟩
  intro fuel
  match fuel with
  | 0 => rfl
  | 1 => decide
  | (f + 1) + 1 =>
    show dAC F8 (f + 1 + 1) 10 (.phi [(0, .inst 0), (3, .inst 11)]) (Val.inst 0)
      none = none
    rw [dAC]
    rw [if_neg (by decide)]
    rw [dACphiAux, hx]
    dsimp only
    rw [Option.getD_none]
    have h5 : dAC F8 (f + 1) 0 (.call "CAT_new" [.const 5]) (Val.inst 0)
        (some 10) = some (some 5) := rfl
    rw [h5]
    dsimp only
    rw [dACphiAux, hB]
    dsimp only
    rw [(dAC_F8_cycle (f + 1)).1]

/-! ### Claim C10: a reaching `CAT_add`/`CAT_sub` redefinition always aborts
constant resolution for its operand -/

/-- `definesAsConstant` never yields a constant from a `CAT_add`/`CAT_sub`
call: only `CAT_new` and `CAT_set` (and phis) produce constants. -/
theorem dACcall_combine_none {lid : Nat} {nm : String} {args : List Val} {a : Val}
    (hnm : nm = "CAT_add" ∨ nm = "CAT_sub") :
    dACcall lid nm args a = none := by
  rcases hnm with rfl | rfl <;>
    exact (if_neg (fun h => absurd h.1 (by decide))).trans
      (if_neg (fun h => absurd h.1 (by decide)))

/-- `defines` holds of a `CAT_add`/`CAT_sub` call and its first operand. -/
theorem defines_combine {lid : Nat} {nm : String} {args : List Val} {a : Val}
    (hnm : nm = "CAT_add" ∨ nm = "CAT_sub") (h0 : args.get? 0 = some a) :
    defines (.call nm args) lid a = true := by
  rcases hnm with rfl | rfl <;>
  · rw [defines]
    rw [if_neg (by decide), if_pos (by simp)]
    exact decide_eq_true h0

/-- If the scanned positions contain a `CAT_add`/`CAT_sub` call redefining the
scanned operand, the scan never finishes with `can_prop` set: it diverges
earlier, aborts earlier, or aborts at that position. -/
theorem scanGo_abort (F : Func) (ents : List Entry) (fuel : Nat) (sto : Int → Int)
    (a : Val) {j : Nat} {ej : Entry} (hej : ents.get? j = some ej)
    {nm : String} {jargs : List Val} (hinstr : ej.instr = .call nm jargs)
    (hnm : nm = "CAT_add" ∨ nm = "CAT_sub") (htgt : jargs.get? 0 = some a) :
    ∀ (l : List Nat), j ∈ l → ∀ (val v : Option Int),
      scanGo F ents fuel sto a l val ≠ some (true, v) := by
  intro l
  induction l with
  | nil =>
    intro h
    exact absurd h (by simp)
  | cons i rest ih =>
    intro hmem val v
    by_cases hij : i = j
    · subst hij
      rw [scanGo, hej]
      dsimp only
      cases fuel with
      | zero =>
        intro hcontra
        exact Option.noConfusion hcontra
      | succ f =>
        have hd : dAC F (f + 1) ej.id ej.instr a none = some none := by
          rw [hinstr]
          show some (dACcall ej.id nm jargs a) = some none
          rw [dACcall_combine_none hnm]
        rw [hd]
        dsimp only
        rw [hinstr, defines_combine hnm htgt]
        simp
    · have hmem' : j ∈ rest := by
        rcases List.mem_cons.1 hmem with h | h
        · exact absurd h.symm hij
        · exact h
      rw [scanGo]
      rcases hei : ents.get? i with _ | e
      · exact ih hmem' val v
      · dsimp only
        rcases hd : dAC F fuel e.id e.instr a none with _ | c'
        · intro hcontra
          exact Option.noConfusion hcontra
        · rcases c' with _ | c
          · dsimp only
            by_cases hdef : defines e.instr e.id a
            · rw [if_pos hdef]
              simp
            · rw [if_neg hdef]
              exact ih hmem' val v
          · dsimp only
            rcases val with _ | v0
            · exact ih hmem' (some (sto c)) v
            · dsimp only
              by_cases hv : v0 ≠ c
              · rw [if_pos hv]
                simp
              · rw [if_neg hv]
                exact ih hmem' (some v0) v

/-- Any planned propagation carries the identity of the entry at its catalog
position. -/
theorem propPlanAt_id {F : Func} {ents : List Entry} {fuel k : Nat} {r : Nat × Int}
    (h : propPlanAt F ents fuel k = some r) :
    ∃ e, ents.get? k = some e ∧ e.id = r.1 := by
  rw [propPlanAt] at h
  repeat' split at h
  all_goals try exact Option.noConfusion h
  cases h
  exact ⟨_, by assumption, rfl⟩

/-- Any planned folding carries the identity of the entry at its catalog
position. -/
theorem foldPlanAt_id {F : Func} {ents : List Entry} {fuel k : Nat} {r : Nat × Int}
    (h : foldPlanAt F ents fuel k = some r) :
    ∃ e, ents.get? k = some e ∧ e.id = r.1 := by
  rw [foldPlanAt] at h
  repeat' split at h
  all_goals try exact Option.noConfusion h
  all_goals (cases h; exact ⟨_, by assumption, rfl⟩)

/-! ### Instruction identities and catalog positions

The embedding realises LLVM pointer identity as the numeric `id`; a function
faithfully represents LLVM IR only when all its instruction identities are
distinct, which `idsNodup` states. Under it, catalog positions are recovered
from identities uniquely. -/

/-- All instruction identities of the function are distinct (automatic for
genuine LLVM IR, where identity is the instruction's address). -/
def idsNodup (F : Func) : Prop :=
  ((allInsts F).map Prod.fst).Nodup

instance (F : Func) : Decidable (idsNodup F) := by
  unfold idsNodup; infer_instance

theorem flatten_sublist {α : Type} {L1 L2 : List (List α)} (h : L1.Sublist L2) :
    L1.flatten.Sublist L2.flatten := by
  induction h with
  | slnil => exact List.Sublist.refl _
  | cons l _ ih =>
    simp only [List.flatten_cons]
    exact ih.trans (List.sublist_append_right l _)
  | cons₂ l _ ih =>
    simp only [List.flatten_cons]
    exact List.Sublist.append (List.Sublist.refl l) ih

theorem range_map_blkInsts (F : Func) :
    (List.range F.blocks.length).map (fun b => blkInsts F b) =
      F.blocks.map Block.insts := by
  apply List.ext_get?
  intro n
  rw [List.get?_map, List.get?_map]
  by_cases h : n < F.blocks.length
  · rw [List.get?_range h]
    have hb : F.blocks.get? n = some (F.blocks.get ⟨n, h⟩) := List.get?_eq_get h
    rw [hb]
    show some (blkInsts F n) = some (F.blocks.get ⟨n, h⟩).insts
    rw [blkInsts, hb]
  · rw [List.get?_eq_none.2 (by rw [List.length_range]; omega),
      List.get?_eq_none.2 (by omega)]
    rfl

/-- The catalog is a sublist of the full instruction list. -/
theorem catInsts_sublist (F : Func) : (catInsts F).Sublist (allInsts F) := by
  rw [catInsts, allInsts, ← range_map_blkInsts]
  exact flatten_sublist ((List.filter_sublist _).map _)

theorem catIds_nodup {F : Func} (h : idsNodup F) :
    (((catInsts F).map Prod.fst)).Nodup :=
  ((catInsts_sublist F).map Prod.fst).nodup h

/-- Under distinct identities, a catalog identity determines its position. -/
theorem catId_inj {F : Func} (h : idsNodup F) {k k' : Nat} {q q' : Nat × Instr}
    (hk : (catInsts F).get? k = some q) (hk' : (catInsts F).get? k' = some q')
    (hid : q.1 = q'.1) : k = k' := by
  have hnd := catIds_nodup h
  have h1 : ((catInsts F).map Prod.fst).get? k = some q.1 := by
    rw [List.get?_map, hk]; rfl
  have h2 : ((catInsts F).map Prod.fst).get? k' = some q'.1 := by
    rw [List.get?_map, hk']; rfl
  have hlen : k < ((catInsts F).map Prod.fst).length := by
    by_contra hc
    rw [List.get?_eq_none.2 (by omega)] at h1
    exact Option.noConfusion h1
  exact List.get?_inj hlen hnd (by rw [h1, h2, hid])

/-- C10: a reaching definition that is a `CAT_add`/`CAT_sub` call redefining
an operand is never treated as constant, so neither a propagation (when the
consumer is a `CAT_get` on that operand) nor a folding (when the consumer is a
`CAT_add`/`CAT_sub` with that operand in value position 1 or 2) is planned for
the consumer — for *every* recursion-depth budget `fuel`. The planner resolves
constants against the unmodified function only (`plans` is a function of `F`
alone), so a folding planned for the reaching combine in the same invocation
can never feed back into this resolution. -/
theorem C10_combine_aborts_resolution (F : Func) (fuel k j : Nat) (a : Val)
    {qk qj : Nat × Instr} {cnm : String} {cargs : List Val}
    (hnodup : idsNodup F)
    (hcat : (catInsts F).get? k = some qk)
    (hjin : j ∈ inAt F k)
    (hjc : (catInsts F).get? j = some qj)
    (hqj : qj.2 = .call cnm cargs)
    (hcnm : cnm = "CAT_add" ∨ cnm = "CAT_sub")
    (hctgt : cargs.get? 0 = some a) :
    (∀ gargs, qk.2 = .call "CAT_get" gargs → gargs.get? 0 = some a →
      ∀ v : Int, (qk.1, v) ∉ (plans fuel F).1) ∧
    (∀ fnm fargs p, qk.2 = .call fnm fargs →
      (fnm = "CAT_add" ∨ fnm = "CAT_sub") → (p = 1 ∨ p = 2) →
      fargs.get? p = some a →
      ∀ v : Int, (qk.1, v) ∉ (plans fuel F).2) := by
  have hkn : k < numCat F := by
    by_contra hc
    rw [List.get?_eq_none.2 (by unfold numCat at hc; omega)] at hcat
    exact Option.noConfusion hcat
  have hjn : j < numCat F := by
    by_contra hc
    rw [List.get?_eq_none.2 (by unfold numCat at hc; omega)] at hjc
    exact Option.noConfusion hjc
  obtain ⟨ek, hekget, hekid, hekinstr⟩ := pass1_entry_at F hcat
  obtain ⟨ej, hejget, hejid, hejinstr⟩ := pass1_entry_at F hjc
  have hejc : ej.instr = .call cnm cargs := by rw [hejinstr, hqj]
  have hjinlist : j ∈ inList F k := by
    rw [inList, List.mem_filter]
    exact ⟨List.mem_range.2 hjn, decide_eq_true hjin⟩
  have habort : ∀ (sto : Int → Int) (val v : Option Int),
      scanGo F (pass1 F) fuel sto a (inList F k) val ≠ some (true, v) :=
    fun sto => scanGo_abort F (pass1 F) fuel sto a hejget hejc hcnm hctgt
      (inList F k) hjinlist
  -- a plan carrying identity `qk.1` can only come from position `k`
  have hpos : ∀ (pl : Nat → Option (Nat × Int)) (v : Int),
      (∀ {k' : Nat} {r : Nat × Int}, pl k' = some r →
        ∃ e, (pass1 F).get? k' = some e ∧ e.id = r.1) →
      (qk.1, v) ∈ (List.range (numCat F)).filterMap pl → pl k = some (qk.1, v) := by
    intro pl v hid hmem
    obtain ⟨k', hk'range, hplan⟩ := List.mem_filterMap.1 hmem
    obtain ⟨e', he'get, he'id⟩ := hid hplan
    have hk'n : k' < numCat F := List.mem_range.1 hk'range
    obtain ⟨qk', hqk'⟩ : ∃ qk', (catInsts F).get? k' = some qk' :=
      ⟨(catInsts F).get ⟨k', hk'n⟩, List.get?_eq_get hk'n⟩
    obtain ⟨e'', he''get, he''id, -⟩ := pass1_entry_at F hqk'
    have hee : e'' = e' := Option.some.inj (he''get.symm.trans he'get)
    have hq : qk'.1 = qk.1 := by rw [← he''id, hee, he'id]
    have hkk : k' = k := catId_inj hnodup hqk' hcat hq
    rw [← hkk]
    exact hplan
  constructor
  · intro gargs hqk hg0 v hmem
    have hekc : ek.instr = .call "CAT_get" gargs := by rw [hekinstr, hqk]
    have hplan : propPlanAt F (pass1 F) fuel k = some (qk.1, v) :=
      hpos _ v (fun h => propPlanAt_id h) hmem
    rw [propPlanAt, hekget] at hplan
    dsimp only at hplan
    rw [hekc] at hplan
    dsimp only at hplan
    rw [if_pos rfl, hg0] at hplan
    dsimp only at hplan
    rcases hs : scanPropGo F (pass1 F) fuel a (inList F k) none with _ | ⟨b, ov⟩ <;>
      rw [hs] at hplan
    · exact Option.noConfusion hplan
    · cases b
      · exact Option.noConfusion hplan
      · cases ov with
        | none => exact Option.noConfusion hplan
        | some w => exact absurd hs (habort (fun c => c) none (some w))
  · intro fnm fargs p hqk hfnm hp hpa v hmem
    have hekc : ek.instr = .call fnm fargs := by rw [hekinstr, hqk]
    have hplan : foldPlanAt F (pass1 F) fuel k = some (qk.1, v) :=
      hpos _ v (fun h => foldPlanAt_id h) hmem
    rw [foldPlanAt, hekget] at hplan
    dsimp only at hplan
    rw [hekc] at hplan
    dsimp only at hplan
    rw [if_pos hfnm] at hplan
    rcases h1 : fargs.get? 1 with _ | a1 <;> rcases h2 : fargs.get? 2 with _ | a2 <;>
      rw [h1, h2] at hplan <;> dsimp only at hplan
    · exact Option.noConfusion hplan
    · exact Option.noConfusion hplan
    · exact Option.noConfusion hplan
    · rcases hp with rfl | rfl
      · have ha1 : a1 = a := Option.some.inj (h1.symm.trans hpa)
        subst ha1
        rcases hs1 : scanFoldGo F (pass1 F) fuel a1 (inList F k) none
          with _ | ⟨b1, r1⟩ <;> rw [hs1] at hplan
        · exact Option.noConfusion hplan
        · cases b1
          · exact Option.noConfusion hplan
          · exact absurd hs1 (habort toInt32 none r1)
      · have ha2 : a2 = a := Option.some.inj (h2.symm.trans hpa)
        subst ha2
        rcases hs1 : scanFoldGo F (pass1 F) fuel a1 (inList F k) none
          with _ | ⟨b1, r1⟩ <;> rw [hs1] at hplan
        · exact Option.noConfusion hplan
        · cases b1
          · exact Option.noConfusion hplan
          · dsimp only at hplan
            rcases hs2 : scanFoldGo F (pass1 F) fuel a2 (inList F k) none
              with _ | ⟨b2, r2⟩ <;> rw [hs2] at hplan
            · exact Option.noConfusion hplan
            · cases b2
              · exact Option.noConfusion hplan
              · exact absurd hs2 (habort toInt32 none r2)

/-- Witness for C10 on `F10`: the `CAT_add(x, x, x)` at catalog index 1
reaches the `CAT_get(x)` at catalog index 2, so no propagation is planned
for it at any fuel — here checked at fuel 9. -/
theorem C10_combine_aborts_resolution_witness :
    idsNodup F10 ∧ (1 : Nat) ∈ inAt F10 2 ∧
    (∀ v : Int, ((2 : Nat), v) ∉ (plans 9 F10).1) := by
  refine ⟨by decide, by decide, ?_⟩
  have h := C10_combine_aborts_resolution F10 9 2 1 (Val.inst 0)
    (show idsNodup F10 by decide)
    (show (catInsts F10).get? 2 = some (2, .call "CAT_get" [Val.inst 0]) by decide)
    (show (1 : Nat) ∈ inAt F10 2 by decide)
    (show (catInsts F10).get? 1 =
      some (1, .call "CAT_add" [Val.inst 0, Val.inst 0, Val.inst 0]) by decide)
    rfl (Or.inl rfl)
    (show [Val.inst 0, Val.inst 0, Val.inst 0].get? 0 = some (Val.inst 0) by decide)
  exact fun v => h.1 [Val.inst 0] rfl rfl v

/-! ### Claims C3, C4 and C5 -/

/-- The spec's definition kinds: Construct (`CAT_new`), Overwrite (`CAT_set`),
Combine (`CAT_add`/`CAT_sub`) and Merge (phi) define; everything else does
not. -/
def isDefKind : Instr → Bool
  | .call n _ => n = "CAT_new" || n = "CAT_set" || n = "CAT_add" || n = "CAT_sub"
  | .phi _ => true
  | _ => false

/-- Counterexample to C3 as stated: the `CAT_get` at catalog index 2 of `F10`
is not a definition, yet its GEN set is `{2}`, not empty — line 341 adds the
own index unconditionally. -/
theorem C3_counterexample :
    (catInsts F10).get? 2 = some (2, .call "CAT_get" [Val.inst 0]) ∧
    isDefKind (.call "CAT_get" [Val.inst 0]) = false ∧
    genAt F10 2 ≠ ∅ := by
  decide

/-- C3 amended: for every catalogued instruction — definition or not — the
GEN set is exactly `{own index}` (so `GEN ⊆ {own index}` does hold, but the
"else empty" half of the claim does not). -/
theorem C3_gen_own_index (F : Func) {k : Nat} (hk : k < numCat F) :
    genAt F k = {k} :=
  genAt_eq F hk

/-- Witness for amended C3, at the non-definition `CAT_get` of `F10`. -/
theorem C3_gen_own_index_witness : 2 < numCat F10 ∧ genAt F10 2 = {2} :=
  ⟨by decide, C3_gen_own_index F10 (by decide)⟩

/-- C4: when the pass-2 loop terminates — a full pass from the `m`-th iterate
changes no OUT set — the resulting state satisfies, at every catalogued
instruction, `OUT = GEN ∪ (IN \ KILL)` and `IN = ⋃ OUT(p)` over the
predecessor positions (previous instruction in the block, or the catalogued
terminators of the CFG predecessor blocks at a block start). -/
theorem C4_fixpoint_equations (F : Func) (m : Nat)
    (hfix : outsEq (numCat F) (dfIterF F m) (onePassF F (dfIterF F m))) :
    ∀ k < numCat F,
      (onePassF F (dfIterF F m) k).2 =
        genAt F k ∪ ((onePassF F (dfIterF F m) k).1 \ killAt F k) ∧
      (onePassF F (dfIterF F m) k).1 =
        outUnion (onePassF F (dfIterF F m)) (predIdxs F k) :=
  fix_equations (genAt F) (killAt F) (predIdxs F)
    (fun _ hk => predIdxs_bound F hk) m hfix

/-- Witness for C4 on `F10`, whose loop is stable after 4 passes. -/
theorem C4_fixpoint_equations_witness :
    outsEq (numCat F10) (dfIterF F10 4) (onePassF F10 (dfIterF F10 4)) ∧
    ∀ k < numCat F10,
      (onePassF F10 (dfIterF F10 4) k).2 =
        genAt F10 k ∪ ((onePassF F10 (dfIterF F10 4) k).1 \ killAt F10 k) ∧
      (onePassF F10 (dfIterF F10 4) k).1 =
        outUnion (onePassF F10 (dfIterF F10 4)) (predIdxs F10 k) :=
  ⟨by decide, C4_fixpoint_equations F10 4 (by decide)⟩

/-- Counterexample to C5 as stated: in `F5` the `CAT_new` (catalog index 3,
layout-later because its block is laid out after the block using it) is killed
by the `CAT_set` at catalog index 1 per `isKilledBy`, yet pass 1 — which only
tests each instruction against *earlier* entries — records nothing: both KILL
sets stay empty. -/
theorem C5_counterexample :
    isKilledBy F5 (3, .call "CAT_new" [Val.const 5])
      (.call "CAT_set" [Val.inst 3, Val.const 7]) = true ∧
    (catInsts F5).get? 3 = some (3, .call "CAT_new" [Val.const 5]) ∧
    (catInsts F5).get? 1 = some (1, .call "CAT_set" [Val.inst 3, Val.const 7]) ∧
    killAt F5 3 = ∅ ∧ killAt F5 1 = ∅ := by
  decide

/-- C5 amended: kill symmetry holds for the pairs pass 1 actually examines —
whenever the killer `R` sits at a *later* catalog position than `L` and
`isKilledBy(L, R)` holds, both positions appear in each other's KILL sets. -/
theorem C5_kill_symmetry_recorded (F : Func) {i j : Nat} {Li Rj : Nat × Instr}
    (hij : i < j) (hLi : (catInsts F).get? i = some Li)
    (hRj : (catInsts F).get? j = some Rj)
    (hkill : isKilledBy F Li Rj.2 = true) :
    j ∈ killAt F i ∧ i ∈ killAt F j :=
  pass1_kill_pair F hij hLi hRj hkill

/-- Witness for amended C5 on `F6`: the `CAT_add` at index 2 kills the
`CAT_new` at index 0 and both KILL sets record it. -/
theorem C5_kill_symmetry_recorded_witness :
    isKilledBy F6 (0, .call "CAT_new" [Val.const 2])
      (.call "CAT_add" [Val.inst 0, Val.inst 0, Val.inst 1]) = true ∧
    2 ∈ killAt F6 0 ∧ 0 ∈ killAt F6 2 := by
  have h := C5_kill_symmetry_recorded F6
    (show (0 : Nat) < 2 by decide)
    (show (catInsts F6).get? 0 = some (0, .call "CAT_new" [Val.const 2]) by decide)
    (show (catInsts F6).get? 2 =
      some (2, .call "CAT_add" [Val.inst 0, Val.inst 0, Val.inst 1]) by decide)
    (by decide)
  exact ⟨by decide, h.1, h.2⟩

/-! ### Claim C9: unreachable code is excluded -/

/-- C9: under distinct instruction identities, (i) no instruction of a block
outside the reachable set appears in the definition catalog — it receives no
index — and (ii) every IN and OUT set of every pass-2 state holds only catalog
indices, i.e. only indices of reachable instructions. -/
theorem C9_unreachable_excluded (F : Func) (h : idsNodup F) :
    (∀ b < F.blocks.length, b ∉ reachableBlocks F →
      ∀ q ∈ blkInsts F b, q ∉ catInsts F) ∧
    (∀ m k, ((dfIterF F m) k).1 ⊆ Finset.range (numCat F) ∧
      ((dfIterF F m) k).2 ⊆ Finset.range (numCat F)) := by
  constructor
  · intro b hb hunreach q hqb hqcat
    rw [catInsts] at hqcat
    obtain ⟨lb, hlb, hqlb⟩ := List.mem_flatten.1 hqcat
    obtain ⟨b', hb'reach, rfl⟩ := List.mem_map.1 hlb
    have hb'mem := List.mem_filter.1 hb'reach
    have hb'len : b' < F.blocks.length := List.mem_range.1 hb'mem.1
    have hb'in : b' ∈ reachableBlocks F := of_decide_eq_true hb'mem.2
    have hbb : b ≠ b' := fun he => hunreach (he ▸ hb'in)
    -- both blocks contribute the identity `q.1`, contradicting `idsNodup`
    have hcount := List.nodup_iff_count_le_one.1 h q.1
    have hmapall : (allInsts F).map Prod.fst =
        (F.blocks.map (fun bl => bl.insts.map Prod.fst)).flatten := by
      rw [allInsts, List.map_flatten, List.map_map]
      rfl
    have hsum : ((allInsts F).map Prod.fst).count q.1 =
        (F.blocks.map (fun bl => (bl.insts.map Prod.fst).count q.1)).sum := by
      rw [hmapall, count_flatten_eq_sum, List.map_map]
      rfl
    have hget : ∀ (c : Nat) (hc : c < F.blocks.length),
        (F.blocks.map (fun bl => (bl.insts.map Prod.fst).count q.1)).get? c =
          some (((F.blocks.get ⟨c, hc⟩).insts.map Prod.fst).count q.1) := by
      intro c hc
      rw [List.get?_map, List.get?_eq_get hc]
      rfl
    have hc1 : 1 ≤ ((F.blocks.get ⟨b, hb⟩).insts.map Prod.fst).count q.1 := by
      refine List.one_le_count_iff.mpr (List.mem_map_of_mem Prod.fst ?_)
      rw [blkInsts, List.get?_eq_get hb] at hqb
      exact hqb
    have hc2 : 1 ≤ ((F.blocks.get ⟨b', hb'len⟩).insts.map Prod.fst).count q.1 := by
      refine List.one_le_count_iff.mpr (List.mem_map_of_mem Prod.fst ?_)
      have : blkInsts F b' = (F.blocks.get ⟨b', hb'len⟩).insts := by
        rw [blkInsts, List.get?_eq_get hb'len]
      rw [← this]
      exact hqlb
    have h2 : 2 ≤ (F.blocks.map (fun bl => (bl.insts.map Prod.fst).count q.1)).sum := by
      rcases Nat.lt_or_ge b b' with ho | ho
      · have := get?_two_le_sum _ b b' _ _ ho (hget b hb) (hget b' hb'len)
        omega
      · have hlt : b' < b := by omega
        have := get?_two_le_sum _ b' b _ _ hlt (hget b' hb'len) (hget b hb)
        omega
    omega
  · intro m k
    exact dfIterF_bounded F m k

/-- Witness for C9 on `F9`, whose middle block (identities 6, 7, 8) is
unreachable. -/
theorem C9_unreachable_excluded_witness :
    idsNodup F9 ∧
    ((∀ b < F9.blocks.length, b ∉ reachableBlocks F9 →
        ∀ q ∈ blkInsts F9 b, q ∉ catInsts F9) ∧
      (∀ m k, ((dfIterF F9 m) k).1 ⊆ Finset.range (numCat F9) ∧
        ((dfIterF F9 m) k).2 ⊆ Finset.range (numCat F9))) :=
  ⟨by decide, C9_unreachable_excluded F9 (by decide)⟩

/-! ### Claim C6: plans are computed first, applied propagations-then-foldings,
and the outcome does not depend on the application order within a phase

The C++ applies each phase in `std::map<Instruction*, …>` iteration order —
instruction-pointer order, which the embedding cannot (and need not) model:
the rewrites of one phase target pairwise distinct instructions and commute,
so every order produces the same function. `runOnFunction` fixes the catalog
order as the canonical one; the theorem shows any permutation of either phase
yields the same result. -/

theorem substVal_comm {o1 o2 n1 n2 : Val} (ho : o1 ≠ o2) (h1 : n1 ≠ o2)
    (h2 : n2 ≠ o1) (v : Val) :
    substVal o2 n2 (substVal o1 n1 v) = substVal o1 n1 (substVal o2 n2 v) := by
  by_cases hv1 : v = o1
  · subst hv1
    simp [substVal, h1, ho]
  · by_cases hv2 : v = o2
    · subst hv2
      simp [substVal, hv1, h2]
    · simp [substVal, hv1, hv2]

theorem Instr.subst_comm {o1 o2 n1 n2 : Val} (ho : o1 ≠ o2) (h1 : n1 ≠ o2)
    (h2 : n2 ≠ o1) (ins : Instr) :
    (ins.subst o1 n1).subst o2 n2 = (ins.subst o2 n2).subst o1 n1 := by
  cases ins with
  | call f args =>
    simp only [Instr.subst, List.map_map]
    congr 1
    exact List.map_congr_left (fun v _ => substVal_comm ho h1 h2 v)
  | phi inc =>
    simp only [Instr.subst, List.map_map]
    congr 1
    refine List.map_congr_left (fun pr _ => ?_)
    show (pr.1, substVal o2 n2 (substVal o1 n1 pr.2)) = _
    rw [substVal_comm ho h1 h2]
    rfl
  | store v p =>
    simp only [Instr.subst]
    rw [substVal_comm ho h1 h2, substVal_comm ho h1 h2]
  | load p =>
    simp only [Instr.subst]
    rw [substVal_comm ho h1 h2]
  | br ts => rfl
  | other => rfl

/-- Element-wise: two propagations of distinct instructions commute on the
instruction list of one block. -/
theorem propInsts_comm {p q : Nat × Int} (h : p.1 ≠ q.1) (l : List (Nat × Instr)) :
    ((l.filter (fun r => r.1 ≠ p.1)).map (propOne p) |>.filter
      (fun r => r.1 ≠ q.1)).map (propOne q) =
    ((l.filter (fun r => r.1 ≠ q.1)).map (propOne q) |>.filter
      (fun r => r.1 ≠ p.1)).map (propOne p) := by
  induction l with
  | nil => rfl
  | cons r l ih =>
    by_cases hp : r.1 = p.1
    · have hq : r.1 ≠ q.1 := hp ▸ h
      rw [List.filter_cons, if_neg (by simp [hp]), List.filter_cons,
        if_pos (by simp [hq]), List.map_cons, List.filter_cons,
        if_neg (by simp [propOne, hp]), ih]
    · by_cases hq : r.1 = q.1
      · rw [List.filter_cons, if_pos (by simp [hp]), List.map_cons,
          List.filter_cons, if_neg (by simp [propOne, hq]), List.filter_cons,
          if_neg (by simp [hq]), ih]
      · rw [List.filter_cons, if_pos (by simp [hp]), List.map_cons,
          List.filter_cons, if_pos (by simp [propOne, hq]), List.map_cons,
          List.filter_cons, if_pos (by simp [hq]), List.map_cons,
          List.filter_cons, if_pos (by simp [propOne, hp]), List.map_cons, ih]
        show (propOne q (propOne p r) :: _ : List (Nat × Instr)) = propOne p (propOne q r) :: _
        rw [show propOne q (propOne p r) = propOne p (propOne q r) from ?_]
        show (r.1, (r.2.subst (Val.inst p.1) (Val.const p.2)).subst (Val.inst q.1)
          (Val.const q.2)) = (r.1, (r.2.subst (Val.inst q.1) (Val.const q.2)).subst
          (Val.inst p.1) (Val.const p.2))
        rw [Instr.subst_comm (by simp [h]) (by simp) (by simp)]

/-- Two planned propagations of distinct instructions commute. -/
theorem applyProp_comm (F : Func) {p q : Nat × Int} (h : p.1 ≠ q.1) :
    applyProp (applyProp F p) q = applyProp (applyProp F q) p := by
  show Func.mk _ = Func.mk _
  congr 1
  simp only [applyProp, List.map_map]
  refine List.map_congr_left (fun b _ => ?_)
  show Block.mk _ = Block.mk _
  congr 1
  exact propInsts_comm h b.insts

/-- Element-wise: two foldings of distinct instructions commute. -/
theorem foldOne_comm {p q : Nat × Int} (h : p.1 ≠ q.1) (r : Nat × Instr) :
    foldOne q (foldOne p r) = foldOne p (foldOne q r) := by
  by_cases hp : r.1 = p.1
  · have hq : r.1 ≠ q.1 := hp ▸ h
    simp [foldOne, hp, hq, h, Ne.symm h]
  · by_cases hq : r.1 = q.1
    · simp [foldOne, hp, hq, h, Ne.symm h]
    · simp [foldOne, hp, hq]

/-- Two planned foldings of distinct instructions commute. -/
theorem applyFold_comm (F : Func) {p q : Nat × Int} (h : p.1 ≠ q.1) :
    applyFold (applyFold F p) q = applyFold (applyFold F q) p := by
  show Func.mk _ = Func.mk _
  congr 1
  simp only [applyFold, List.map_map]
  refine List.map_congr_left (fun b _ => ?_)
  show Block.mk _ = Block.mk _
  congr 1
  simp only [List.map_map]
  exact List.map_congr_left (fun r _ => foldOne_comm h r)

/-- C6: the rewrite plans are computed in full over the unmodified function
(`plans` only reads `F`); application is all propagations first, then all
foldings, `runOnFunction` taking catalog (instruction-index) order as
canonical within each phase. Since the planned rewrites of a phase target
pairwise distinct instructions, *any* application order of either phase —
in the C++, the `std::map` pointer order — produces the same function, so the
output is deterministic and the function is never partially rewritten. -/
theorem C6_plans_apply_deterministic (fuel : Nat) (F : Func)
    (l m : List (Nat × Int))
    (hl : l.Perm (plans fuel F).1) (hm : m.Perm (plans fuel F).2)
    (h1 : ((plans fuel F).1.map Prod.fst).Nodup)
    (h2 : ((plans fuel F).2.map Prod.fst).Nodup) :
    m.foldl applyFold (l.foldl applyProp F) = runOnFunction fuel F := by
  have hl1 : (l.map Prod.fst).Nodup := ((hl.map Prod.fst).nodup_iff).2 h1
  have hm1 : (m.map Prod.fst).Nodup := ((hm.map Prod.fst).nodup_iff).2 h2
  have hcomm1 : ∀ x ∈ l, ∀ y ∈ l, ∀ z : Func,
      applyProp (applyProp z x) y = applyProp (applyProp z y) x := by
    intro x hx y hy z
    by_cases hxy : x.1 = y.1
    · rw [List.inj_on_of_nodup_map hl1 hx hy hxy]
    · exact applyProp_comm z hxy
  have hcomm2 : ∀ x ∈ m, ∀ y ∈ m, ∀ z : Func,
      applyFold (applyFold z x) y = applyFold (applyFold z y) x := by
    intro x hx y hy z
    by_cases hxy : x.1 = y.1
    · rw [List.inj_on_of_nodup_map hm1 hx hy hxy]
    · exact applyFold_comm z hxy
  rw [List.Perm.foldl_eq' hl hcomm1 F]
  rw [List.Perm.foldl_eq' hm hcomm2 ((plans fuel F).1.foldl applyProp F)]
  rfl

/-- Witness for C6 on `F6`: one propagation and one folding are planned; the
hypotheses hold by computation and the conclusion pins the rewritten function. -/
theorem C6_plans_apply_deterministic_witness :
    ([((3 : Nat), (3 : Int))].Perm (plans 9 F6).1 ∧
      [((2 : Nat), (5 : Int))].Perm (plans 9 F6).2 ∧
      ((plans 9 F6).1.map Prod.fst).Nodup ∧ ((plans 9 F6).2.map Prod.fst).Nodup) ∧
    [((2 : Nat), (5 : Int))].foldl applyFold
      ([((3 : Nat), (3 : Int))].foldl applyProp F6) = runOnFunction 9 F6 :=
  ⟨⟨by decide, by decide, by decide, by decide⟩,
    C6_plans_apply_deterministic 9 F6 _ _ (by decide) (by decide) (by decide)
      (by decide)⟩

/-! ### Claims C1 and C2: concrete evaluations exhibiting the code bugs -/

/-- C1: the folded value is *not* computed in 64-bit arithmetic. In `F1` both
operands of the `CAT_add` resolve to single reaching constants `2^32` and `0`;
the spec's 64-bit sum is `4294967296`, but the planner stores
`getSExtValue()` into a C `int` (`val1`/`val2`), so the planned `CAT_set`
carries `toInt32 (toInt32 4294967296 + toInt32 0) = 0`. The combine *is*
replaced by a `CAT_set` of the same target, but with the truncated constant. -/
theorem C1_folding_truncates_to_32_bits :
    (plans 9 F1).2 = [(2, 0)] ∧
    toInt32 4294967296 = 0 ∧
    (4294967296 : Int) + 0 ≠ 0 ∧
    runOnFunction 9 F1 =
      ⟨[⟨[(0, .call "CAT_new" [.const 4294967296]),
          (1, .call "CAT_new" [.const 0]),
          (2, .call "CAT_set" [.inst 0, .const 0]),
          (3, .other)]⟩]⟩ := by
  refine ⟨by decide, by decide, by decide, by decide⟩

/-- C2: reaching definitions of *other* variables are not always ignored. In
`F2`, the phi (identity 30, catalog index 6) merges two `CAT_new(7)` of other
variables; `definesAsConstant` never compares the phi against the queried
value, so the phi is reported as defining `x` (identity 0) as the constant 7 —
although `defines` correctly says it does not define `x`. Both the phi and
`x = CAT_new(5)` reach the `CAT_get(x)` at catalog index 7, the candidates 5
and 7 conflict, and the propagation of 5 that the claim mandates is not
planned: the plan list is empty. -/
theorem C2_phi_conflicts_block_propagation :
    dAC F2 9 30 (.phi [(1, .inst 10), (2, .inst 20)]) (Val.inst 0) none =
      some (some 7) ∧
    defines (.phi [(1, .inst 10), (2, .inst 20)]) 30 (Val.inst 0) = false ∧
    (6 : Nat) ∈ inAt F2 7 ∧ (0 : Nat) ∈ inAt F2 7 ∧
    dAC F2 9 0 (.call "CAT_new" [.const 5]) (Val.inst 0) none = some (some 5) ∧
    (catInsts F2).get? 7 = some (31, .call "CAT_get" [Val.inst 0]) ∧
    (plans 9 F2).1 = [] := by
  refine ⟨by decide, by decide, by decide, by decide, by decide, by decide,
    by decide⟩

end CatPass
